import Mathlib

/-!
A shallow embedding of the DateSense format-detection engine
(DateSense/DStoken.py, DateSense/DSrule.py, DateSense/DSoptions.py).

Python strings are Lean `String`s, Python ints are `Int` (scores, ranges)
or `Nat` (indices, lengths).  Code that can raise in Python (list index
out of range, subscripting a `None` numrange) is modelled with `Option`,
where `none` is the raised exception.  Python object identity (used by
`tok != highest`, `tok not in ordered_toks` and the `adjacent` list) is
modelled with explicit (position, slot) indices, as the objects involved
are created one per slot and never aliased across slots.
-/

namespace DateSense

/-- Token kinds of DStoken: KIND_DECORATOR = 0, KIND_NUMBER = 1,
KIND_WORD = 2, KIND_TIMEZONE = 3. -/
inductive DSkind where
  | dec
  | num
  | word
  | tz
deriving DecidableEq, Repr

/-- DStoken.TIMEZONE_LENGTH. -/
def TIMEZONE_LENGTH : Nat := 4

/-- A token of a tokenized date string (a DStoken as produced by
DStoken.tokenize_date; its score and option attributes are never consulted
on date tokens, so only kind and text are carried). -/
structure DTok where
  kind : DSkind
  text : String
deriving DecidableEq, Repr

/-- Character classification of the tokenizer's first pass.  The Python
code computes `KIND_NUMBER*is_digit + KIND_WORD*is_alpha +
KIND_TIMEZONE*is_tzoff` from the three mutually exclusive class flags,
which is exactly this case split (0 = decorator when no flag is set). -/
def classify_char (c : Char) : DSkind :=
  let asc := c.toNat
  if 48 ≤ asc ∧ asc ≤ 57 then DSkind.num
  else if (97 ≤ asc ∧ asc ≤ 122) ∨ (65 ≤ asc ∧ asc ≤ 90) then DSkind.word
  else if asc = 43 ∨ asc = 45 then DSkind.tz
  else DSkind.dec

/-- First pass of DStoken.tokenize_date: split the character stream into
runs of one class; a class change emits the accumulated token, and a sign
character (current_kind == KIND_TIMEZONE) never extends the current run.
The accumulator is `none` exactly when Python's current_text is empty
(initially current_kind = -1 and current_text = '', and the -1 sentinel
equals no classification, so the first character always starts a run). -/
def tokenize_pass1 : Option (DSkind × List Char) → List Char → List DTok
  | none, [] => []
  | some (k, t), [] => [⟨k, ⟨t⟩⟩]
  | none, c :: cs => tokenize_pass1 (some (classify_char c, [c])) cs
  | some (k, t), c :: cs =>
    if classify_char c = k ∧ k ≠ DSkind.tz then tokenize_pass1 (some (k, t ++ [c])) cs
    else ⟨k, ⟨t⟩⟩ :: tokenize_pass1 (some (classify_char c, [c])) cs

/-- True when the previous token (tokens[i-1] as the Python loop sees it,
i.e. after any in-place mutation of earlier iterations) does not forbid a
timezone merge: `(not tokprev) or not (tokprev.is_number() or
tokprev.is_timezone())`. -/
def tz_check_prev : Option DTok → Bool
  | none => true
  | some p => !(p.kind == DSkind.num || p.kind == DSkind.tz)

/-- Second pass of DStoken.tokenize_date: a sign token immediately followed
by a 4-character numeric token, and not preceded by a numeric or sign
token, is merged with it into one timezone-offset token (the numeric token
is skipped); a sign token failing the check is reclassified in place as a
decorator.  The first argument is tokens[i-1] as the Python loop would
read it: after a merge it is the consumed numeric token (unchanged in the
array), after a failed check the reclassified decorator. -/
def tokenize_pass2 : Option DTok → List DTok → List DTok
  | _, [] => []
  | _, [tok] =>
    if tok.kind == DSkind.tz then [⟨DSkind.dec, tok.text⟩] else [tok]
  | prev, tok :: next :: rest2 =>
    if tok.kind == DSkind.tz then
      if tz_check_prev prev && (next.kind == DSkind.num)
          && (next.text.length == TIMEZONE_LENGTH) then
        ⟨DSkind.tz, tok.text ++ next.text⟩ :: tokenize_pass2 (some next) rest2
      else
        ⟨DSkind.dec, tok.text⟩ ::
          tokenize_pass2 (some ⟨DSkind.dec, tok.text⟩) (next :: rest2)
    else tok :: tokenize_pass2 (some tok) (next :: rest2)

/-- DStoken.tokenize_date. -/
def tokenize_date (date_string : String) : List DTok :=
  tokenize_pass2 none (tokenize_pass1 none date_string.data)

/-- Python `str.lower()` restricted to ASCII (the word tables are ASCII). -/
def char_lower (c : Char) : Char :=
  if 65 ≤ c.toNat ∧ c.toNat ≤ 90 then Char.ofNat (c.toNat + 32) else c

/-- Python `value.lower()`. -/
def str_lower (s : String) : String := ⟨s.data.map char_lower⟩

/-- Python `word.startswith(value_lower)`: the second string is a prefix
of the first. -/
def str_starts_with (s p : String) : Bool := p.data.isPrefixOf s.data

/-- Python `t in s` on two strings: t occurs in s as a contiguous
substring (the empty string is a substring of everything). -/
def str_in (t s : String) : Bool :=
  (List.range (s.data.length + 1)).any (fun i => t.data.isPrefixOf (s.data.drop i))

/-- Python `int(text)` on the (all-digit) text of a numeric token. -/
def parse_int (s : String) : Int :=
  Int.ofNat (s.data.foldl (fun a c => a * 10 + (c.toNat - 48)) 0)

/-- DSoptions.NumOption: a possible numeric directive. -/
structure NumOption where
  directive : String
  common : Int
  numrange : Int × Int
deriving DecidableEq, Repr

/-- NumOption.includesvalue. -/
def NumOption.includesvalue (o : NumOption) (value : Int) : Bool :=
  o.numrange.1 ≤ value && value ≤ o.numrange.2

/-- DSoptions.WordOption: a possible alphabetical directive. -/
structure WordOption where
  directive : String
  common : Int
  words : List String
  matchlength : Nat
deriving DecidableEq, Repr

/-- WordOption.includesvalue.  `if self.matchlength and len(value_lower) >=
self.matchlength` takes the prefix-match branch exactly when matchlength
is nonzero and the lower-cased value is at least that long. -/
def WordOption.includesvalue (o : WordOption) (value : String) : Bool :=
  let value_lower := str_lower value
  if o.matchlength ≠ 0 ∧ o.matchlength ≤ value_lower.length then
    o.words.any (fun word => str_starts_with word value_lower)
  else
    o.words.contains value_lower

/-- A candidate DStoken held in a DSoptions allowed list.  The four
constructors are DStoken.create_decorator, create_number, create_word and
create_timezone; numeric and word candidates always carry the option that
justifies them (their text is the option's directive), decorator and
timezone candidates carry none. -/
inductive DScand where
  | dec (text : String) (score : Int)
  | num (option : NumOption) (score : Int)
  | word (option : WordOption) (score : Int)
  | tz (text : String) (score : Int)
deriving DecidableEq, Repr

/-- The kind attribute of a candidate. -/
def DScand.kind : DScand → DSkind
  | .dec _ _ => DSkind.dec
  | .num _ _ => DSkind.num
  | .word _ _ => DSkind.word
  | .tz _ _ => DSkind.tz

/-- The text attribute of a candidate (create_number / create_word set it
to the option's directive). -/
def DScand.text : DScand → String
  | .dec t _ => t
  | .num o _ => o.directive
  | .word o _ => o.directive
  | .tz t _ => t

/-- The (mutable) score attribute of a candidate. -/
def DScand.score : DScand → Int
  | .dec _ s => s
  | .num _ s => s
  | .word _ s => s
  | .tz _ s => s

/-- `tok.score += d`. -/
def DScand.add_score : DScand → Int → DScand
  | .dec t s, d => .dec t (s + d)
  | .num o s, d => .num o (s + d)
  | .word o s, d => .word o (s + d)
  | .tz t s, d => .tz t (s + d)

/-- DStoken.is_decorator. -/
def DScand.is_decorator (c : DScand) : Bool := c.kind == DSkind.dec

/-- DStoken.get_token_with_text: the first candidate whose text occurs in
the given string (Python's `tok.text in text` substring test). -/
def get_token_with_text (toklist : List DScand) (text : String) : Option DScand :=
  toklist.find? (fun tok => str_in tok.text text)

/-- Accumulator loop of DStoken.get_max_score: `high` is the running
first-encountered maximum, replaced only on a strictly greater score. -/
def get_max_score_aux (high : DScand) : List DScand → DScand
  | [] => high
  | tok :: rest =>
    get_max_score_aux (if tok.score > high.score then tok else high) rest

/-- DStoken.get_max_score: highest-scoring candidate, first occurrence
wins ties, None on an empty list. -/
def get_max_score : List DScand → Option DScand
  | [] => none
  | tok :: rest => some (get_max_score_aux tok rest)

/-- Accumulator loop of DStoken.get_all_max_score (`high` is nonempty
after the first element; its head carries the current maximum score). -/
def get_all_max_score_aux : List DScand → List DScand → List DScand
  | high, [] => high
  | [], tok :: rest => get_all_max_score_aux [tok] rest
  | h :: hs, tok :: rest =>
    if tok.score > h.score then get_all_max_score_aux [tok] rest
    else if tok.score == h.score then get_all_max_score_aux (h :: hs ++ [tok]) rest
    else get_all_max_score_aux (h :: hs) rest

/-- DStoken.get_all_max_score: all candidates tied at the maximum score,
in list order. -/
def get_all_max_score (toklist : List DScand) : List DScand :=
  get_all_max_score_aux [] toklist

/-- Map with the element's index (Python enumerate), index starting at n. -/
def mapi_from {α β : Type} (f : Nat → α → β) : Nat → List α → List β
  | _, [] => []
  | n, a :: l => f n a :: mapi_from f (n + 1) l

/-- Map with the element's index, starting at 0. -/
def mapi {α β : Type} (f : Nat → α → β) (l : List α) : List β :=
  mapi_from f 0 l

/-- Python enumerate starting at n. -/
def enum_from {α : Type} : Nat → List α → List (Nat × α)
  | _, [] => []
  | n, a :: l => (n, a) :: enum_from (n + 1) l

/-- Python enumerate. -/
def py_enum {α : Type} (l : List α) : List (Nat × α) :=
  enum_from 0 l

/-- One slot of the candidate model: DSoptions.allowed[i] together with
DSoptions.numranges[i] (the two Python lists are appended to in lockstep
and always have equal length, so they are zipped here). -/
structure DSpos where
  cands : List DScand
  numrange : Option (Int × Int)
deriving DecidableEq, Repr

/-- Python membership `text in spec` as used by the rule classes, whose
directive / sequence fields may be a single string (substring test) or a
tuple of strings (membership test). -/
inductive PySpec where
  | str (s : String)
  | tup (l : List String)
deriving DecidableEq, Repr

/-- Python `text in spec`. -/
def py_in (text : String) : PySpec → Bool
  | .str s => str_in text s
  | .tup l => l.contains text

/-- One of the four DSrule classes (DSDelimiterRule, DSLikelyRangeRule,
DSPatternRule, DSMutExclusionRule) with its configuration.  A delimiters
field is stored as the list Python iteration would yield (the characters
of a string, or the elements of a tuple). -/
inductive DSrule where
  | delimiter (directives : PySpec) (delimiters : List String)
      (posscore negscore : Int)
  | likelyrange (directives : PySpec) (likelyrange : Int × Int)
      (posscore negscore : Int)
  | pattern (sequence : List PySpec) (maxdistance : Nat) (minmatchscore : Int)
      (posscore negscore : Int)
  | mutexclusion (directives : List PySpec) (posscore negscore : Int)
deriving DecidableEq, Repr

/-- DSoptions session state. -/
structure DSoptions where
  positions : List DSpos
  numoptions : List NumOption
  wordoptions : List WordOption
  tzoffsetdirective : String
  formatrules : List DSrule
deriving DecidableEq, Repr

/-- The candidate list built by DSoptions.init_with_date_tokens for one
date token: always the decorator candidate first, then (in catalog order)
a candidate for every option accepting the token's value; for a numeric
token the observed range starts at [value, value] when any numeric option
accepted (numrange is assigned inside the per-option loop, always with
the same value).  (The loop's skip flag is dead code: nothing sets it.) -/
def init_pos (opts : DSoptions) (tok : DTok) : DSpos :=
  match tok.kind with
  | DSkind.num =>
    let number := parse_int tok.text
    let numcands := (opts.numoptions.filter (fun o => o.includesvalue number)).map
      (fun o => DScand.num o o.common)
    { cands := DScand.dec tok.text 0 :: numcands,
      numrange := if numcands.isEmpty then none else some (number, number) }
  | DSkind.word =>
    { cands := DScand.dec tok.text 0 ::
        (opts.wordoptions.filter (fun o => o.includesvalue tok.text)).map
          (fun o => DScand.word o o.common),
      numrange := none }
  | DSkind.tz =>
    { cands := [DScand.dec tok.text 0, DScand.tz opts.tzoffsetdirective 0],
      numrange := none }
  | DSkind.dec => { cands := [DScand.dec tok.text 0], numrange := none }

/-- DSoptions.init_with_date_tokens: append one position per date token. -/
def init_with_date_tokens (opts : DSoptions) (date_tokens : List DTok) : DSoptions :=
  { opts with positions := opts.positions ++ date_tokens.map (init_pos opts) }

/-- Candidate loop of DSoptions.cull_with_date_tokens at one position
(Python iterates backwards only so that deletion does not skip elements;
the kept set and the numrange updates, which all use the same value, do
not depend on the direction).  `none` models the TypeError raised by
`self.numranges[i][0]` when a numeric candidate is accepted at a position
whose numrange is None. -/
def cull_pos_go (dtok : DTok) : List DScand → Option (Int × Int) →
    Option (List DScand × Option (Int × Int))
  | [], rng => some ([], rng)
  | c :: rest, rng =>
    match c with
    | .dec t _ =>
      if t == dtok.text then
        (cull_pos_go dtok rest rng).map (fun p => (c :: p.1, p.2))
      else cull_pos_go dtok rest rng
    | .num o _ =>
      if dtok.kind == DSkind.num then
        let number := parse_int dtok.text
        if o.includesvalue number then
          match rng with
          | some (lo, hi) =>
            (cull_pos_go dtok rest (some (min number lo, max number hi))).map
              (fun p => (c :: p.1, p.2))
          | none => none
        else cull_pos_go dtok rest rng
      else cull_pos_go dtok rest rng
    | .word o _ =>
      if dtok.kind == DSkind.word then
        if o.includesvalue dtok.text then
          (cull_pos_go dtok rest rng).map (fun p => (c :: p.1, p.2))
        else cull_pos_go dtok rest rng
      else cull_pos_go dtok rest rng
    | .tz _ _ =>
      if dtok.kind == DSkind.tz then
        (cull_pos_go dtok rest rng).map (fun p => (c :: p.1, p.2))
      else cull_pos_go dtok rest rng

/-- cull_with_date_tokens at one position. -/
def cull_pos (p : DSpos) (dtok : DTok) : Option DSpos :=
  (cull_pos_go dtok p.cands p.numrange).map (fun q => ⟨q.1, q.2⟩)

/-- Position loop of DSoptions.cull_with_date_tokens: positions are walked
up to the shorter of the two sequences (`itrrange = min(len(self.allowed),
len(date_tokens))`); positions beyond it are untouched. -/
def cull_go : List DSpos → List DTok → Option (List DSpos)
  | ps, [] => some ps
  | [], _ => some []
  | p :: ps, t :: ts =>
    match cull_pos p t with
    | some p2 => (cull_go ps ts).map (fun l => p2 :: l)
    | none => none

/-- DSoptions.cull_with_date_tokens. -/
def cull_with_date_tokens (opts : DSoptions) (date_tokens : List DTok) :
    Option DSoptions :=
  (cull_go opts.positions date_tokens).map (fun l => { opts with positions := l })

/-- DSoptions.cull_with_dates: cull with each sample in order. -/
def cull_with_dates (opts : DSoptions) : List String → Option DSoptions
  | [] => some opts
  | d :: ds =>
    match cull_with_date_tokens opts (tokenize_date d) with
    | some o2 => cull_with_dates o2 ds
    | none => none

/-- DSoptions.cull_decorators at one position: where both decorator and
non-decorator candidates are present, the decorators are removed. -/
def cull_decorators_pos (p : DSpos) : DSpos :=
  let founddir := p.cands.any (fun c => !(c.is_decorator))
  let founddec := p.cands.any (fun c => c.is_decorator)
  if founddir && founddec then
    { p with cands := p.cands.filter (fun c => !(c.is_decorator)) }
  else p

/-- DSoptions.cull_decorators. -/
def cull_decorators (opts : DSoptions) : DSoptions :=
  { opts with positions := opts.positions.map cull_decorators_pos }

/-- Whether a position has some candidate with a delimiter's text as a
possibility (`DStoken.get_token_with_text(toklist, delimiter)` is
truthy). -/
def has_delimiter (delimiters : List String) (cands : List DScand) : Bool :=
  delimiters.any (fun d => (get_token_with_text cands d).isSome)

/-- The candidate list at index i, empty when out of range. -/
def cands_at (ps : List DSpos) (i : Nat) : List DScand :=
  match ps.get? i with
  | some p => p.cands
  | none => []

/-- Whether position i was put on DSDelimiterRule.apply's `adjacent` list:
some delimiter is a possibility at i-1 or at i+1.  (Python collects the
neighbour toklists into a list and tests `toklist in adjacent` with list
equality, which is membership by object identity here since distinct
positions hold distinct candidate objects; an empty toklist can alias
another empty one, but scoring an empty toklist is a no-op, so index
membership is observationally the same.) -/
def delim_adjacent (delimiters : List String) (ps : List DSpos) (i : Nat) : Bool :=
  (i ≥ 1 && has_delimiter delimiters (cands_at ps (i - 1)))
    || has_delimiter delimiters (cands_at ps (i + 1))

/-- Score update of DSDelimiterRule.apply for one candidate.  (The Python
`if self.posscore:` / `elif self.negscore:` guards only skip adding a
zero, which is the same as adding it.) -/
def delim_score (directives : PySpec) (d : Int) (c : DScand) : DScand :=
  if py_in c.text directives then c.add_score d else c

/-- DSDelimiterRule.apply. -/
def DSDelimiterRule_apply (directives : PySpec) (delimiters : List String)
    (posscore negscore : Int) (opts : DSoptions) : DSoptions :=
  let ps2 := mapi (fun i p =>
      if delim_adjacent delimiters opts.positions i then
        { p with cands := p.cands.map (delim_score directives posscore) }
      else
        { p with cands := p.cands.map (delim_score directives negscore) })
    opts.positions
  { opts with positions := ps2 }

/-- Score update of DSLikelyRangeRule.apply for one candidate: a numeric
candidate whose text is in the rule's directives gets posscore when the
observed range is inside the likely range and negscore otherwise; `none`
models the TypeError of the unguarded `options.numranges[i][0]` when the
position's numrange is None. -/
def likelyrange_cand (directives : PySpec) (likelyrange : Int × Int)
    (posscore negscore : Int) (rng : Option (Int × Int)) (c : DScand) :
    Option DScand :=
  match c with
  | .num o s =>
    if py_in o.directive directives then
      match rng with
      | some (lo, hi) =>
        some (.num o (s +
          (if likelyrange.1 ≤ lo ∧ hi ≤ likelyrange.2 then posscore else negscore)))
      | none => none
    else some (.num o s)
  | .dec t s => some (.dec t s)
  | .word o s => some (.word o s)
  | .tz t s => some (.tz t s)

/-- Map a fallible per-candidate update over a candidate list. -/
def omap_cands (f : DScand → Option DScand) : List DScand → Option (List DScand)
  | [] => some []
  | c :: rest =>
    match f c with
    | some c2 => (omap_cands f rest).map (fun l => c2 :: l)
    | none => none

/-- Map a fallible per-position update over the position list. -/
def omap_pos (f : DSpos → Option DSpos) : List DSpos → Option (List DSpos)
  | [] => some []
  | p :: rest =>
    match f p with
    | some p2 => (omap_pos f rest).map (fun l => p2 :: l)
    | none => none

/-- DSLikelyRangeRule.apply. -/
def DSLikelyRangeRule_apply (directives : PySpec) (likelyrange : Int × Int)
    (posscore negscore : Int) (opts : DSoptions) : Option DSoptions :=
  (omap_pos (fun p =>
      (omap_cands (likelyrange_cand directives likelyrange posscore negscore
        p.numrange) p.cands).map (fun l => { p with cands := l }))
    opts.positions).map (fun l => { opts with positions := l })

/-- State of DSPatternRule.apply's scan over the positions: the sequence
element currently expected (seq_hd, with seq_tl the rest — Python's onarg
index into self.sequence), the count of positions passed since the last
matching one, the candidates collected for the occurrence being built
(ordered_toks_current), and all candidates of completed occurrences
(ordered_toks).  Candidates are recorded as (position, slot) indices. -/
structure ScanState where
  seq_hd : PySpec
  seq_tl : List PySpec
  counter : Nat
  current : List (Nat × Nat)
  acc : List (Nat × Nat)
deriving Repr

/-- One iteration of DSPatternRule.apply's scan (one position).  Note that
on completing the sequence, ordered_toks_current is carried over, not
cleared: only onarg is reset. -/
def pattern_step (seq0 : PySpec) (seqRest : List PySpec) (maxdistance : Nat)
    (minmatchscore : Int) (st : ScanState) (i : Nat) (cands : List DScand) :
    ScanState :=
  let st :=
    if st.current.isEmpty then st
    else
      let counter := st.counter + 1
      if counter > maxdistance then
        { st with seq_hd := seq0, seq_tl := seqRest, counter := 0, current := [] }
      else { st with counter := counter }
  let matched := ((py_enum cands).filter (fun jc =>
      (minmatchscore ≤ jc.2.score || jc.2.is_decorator)
        && py_in jc.2.text st.seq_hd)).map (fun jc => (i, jc.1))
  if matched.isEmpty then st
  else
    let current := st.current ++ matched
    match st.seq_tl with
    | [] =>
      { seq_hd := seq0, seq_tl := seqRest, counter := 0, current := current,
        acc := st.acc ++ current }
    | s1 :: stl =>
      { st with seq_hd := s1, seq_tl := stl, counter := 0, current := current }

/-- The scan of DSPatternRule.apply: the flattened ordered_toks list of
(position, slot) indices of candidates that were part of some completed
occurrence (with repetitions when the un-cleared accumulator re-submits
them). -/
def pattern_scan (seq0 : PySpec) (seqRest : List PySpec) (maxdistance : Nat)
    (minmatchscore : Int) (ps : List DSpos) : List (Nat × Nat) :=
  ((py_enum ps).foldl
    (fun st ip => pattern_step seq0 seqRest maxdistance minmatchscore st ip.1 ip.2.cands)
    { seq_hd := seq0, seq_tl := seqRest, counter := 0, current := [], acc := [] }).acc

/-- Add d to the score of the candidate at (i, j). -/
def mod_cand (ps : List DSpos) (ij : Nat × Nat) (d : Int) : List DSpos :=
  mapi (fun i p =>
    if i == ij.1 then
      { p with cands := mapi (fun j c =>
          if j == ij.2 then c.add_score d else c) p.cands }
    else p) ps

/-- Positive phase of DSPatternRule.apply: `for tok in ordered_toks:
tok.score += self.posscore` (a candidate listed n times is incremented n
times). -/
def pattern_pos_phase (posscore : Int) (ordered : List (Nat × Nat))
    (ps : List DSpos) : List DSpos :=
  ordered.foldl (fun ps ij => mod_cand ps ij posscore) ps

/-- Negative phase of DSPatternRule.apply: every non-decorator candidate
gets negscore once for each sequence element containing its text, unless
it is in ordered_toks (`tok not in ordered_toks` is an identity test,
hence index membership here). -/
def pattern_neg_phase (sequence : List PySpec) (negscore : Int)
    (ordered : List (Nat × Nat)) (ps : List DSpos) : List DSpos :=
  mapi (fun i p =>
    { p with cands := mapi (fun j c =>
        if c.is_decorator then c
        else sequence.foldl (fun c2 matchtext =>
          if py_in c2.text matchtext && !(ordered.contains (i, j)) then
            c2.add_score negscore
          else c2) c) p.cands }) ps

/-- DSPatternRule.apply.  With an empty sequence Python raises IndexError
at `self.sequence[onarg]` on the first candidate it inspects; with all
candidate lists empty the scan inspects nothing and the rule is a no-op. -/
def DSPatternRule_apply (sequence : List PySpec) (maxdistance : Nat)
    (minmatchscore : Int) (posscore negscore : Int) (opts : DSoptions) :
    Option DSoptions :=
  match sequence with
  | [] =>
    if opts.positions.all (fun p => p.cands.isEmpty) then some opts else none
  | s0 :: srest =>
    let ordered := pattern_scan s0 srest maxdistance minmatchscore opts.positions
    let ps2 := pattern_pos_phase posscore ordered opts.positions
    some { opts with positions := pattern_neg_phase sequence negscore ordered ps2 }

/-- Champion-tracking update of DSMutExclusionRule.apply for one
candidate: matchedtoks[i] records, for each group element i, the best
score seen so far among candidates whose text is in that element (strict
improvement only, so the first-encountered instance wins ties). -/
def mutex_update_tok (directives : List PySpec) (tok : DScand)
    (m : List (Option Int)) : List (Option Int) :=
  (directives.zip m).map (fun sm =>
    if py_in tok.text sm.1 then
      match sm.2 with
      | none => some tok.score
      | some s => if tok.score > s then some tok.score else some s
    else sm.2)

/-- Winner selection of DSMutExclusionRule.apply: the group element with
the highest champion score, ties to the lowest element index. -/
def mutex_highest (m : List (Option Int)) : Option (Nat × Int) :=
  (py_enum m).foldl (fun best ic =>
    match ic.2 with
    | none => best
    | some s =>
      match best with
      | none => some (ic.1, s)
      | some bi => if s > bi.2 then some (ic.1, s) else best) none

/-- DSMutExclusionRule.apply. -/
def DSMutExclusionRule_apply (directives : List PySpec)
    (posscore negscore : Int) (opts : DSoptions) : DSoptions :=
  let m := opts.positions.foldl (fun m p =>
      p.cands.foldl (fun m tok => mutex_update_tok directives tok m) m)
    (directives.map (fun _ => none))
  match mutex_highest m with
  | none => opts
  | some hi =>
    { opts with positions := opts.positions.map (fun p =>
        { p with cands := p.cands.map (fun tok =>
            (py_enum directives).foldl (fun tok2 ispec =>
              if py_in tok2.text ispec.2 then
                tok2.add_score (if ispec.1 == hi.1 then posscore else negscore)
              else tok2) tok) }) }

/-- DSrule dispatch (duck-typed rule.apply(options)). -/
def DSrule.apply (opts : DSoptions) : DSrule → Option DSoptions
  | .delimiter d dl p n => some (DSDelimiterRule_apply d dl p n opts)
  | .likelyrange d lr p n => DSLikelyRangeRule_apply d lr p n opts
  | .pattern s md mm p n => DSPatternRule_apply s md mm p n opts
  | .mutexclusion d p n => some (DSMutExclusionRule_apply d p n opts)

/-- DSoptions.apply_rules: rules run in order against the live model. -/
def apply_rules (opts : DSoptions) : List DSrule → Option DSoptions
  | [] => some opts
  | r :: rs =>
    match DSrule.apply opts r with
    | some o2 => apply_rules o2 rs
    | none => none

/-- Step A collection of DSoptions.penalize_duplicates: the texts that are
the solitary best score of some position and are not decorators, first
occurrence order, no duplicates. -/
def stepA_hightoks (ps : List DSpos) : List String :=
  ps.foldl (fun hightoks p =>
    match get_all_max_score p.cands with
    | [h] =>
      if !(h.is_decorator) && !(hightoks.contains h.text) then
        hightoks ++ [h.text]
      else hightoks
    | _ => hightoks) []

/-- Step A of DSoptions.penalize_duplicates: at every position whose
best-scoring set has more than one member, candidates whose text is a
solitary-best directive elsewhere get the penalty. -/
def penalize_duplicates_stepA (dupepenalty : Int) (opts : DSoptions) : DSoptions :=
  let hightoks := stepA_hightoks opts.positions
  { opts with positions := opts.positions.map (fun p =>
      if (get_all_max_score p.cands).length > 1 then
        { p with cands := p.cands.map (fun tok =>
            if hightoks.contains tok.text then tok.add_score dupepenalty else tok) }
      else p) }

/-- get_all_max_score carrying candidate slot indices (needed because the
second step of penalize_duplicates distinguishes same-text candidates by
object identity). -/
def all_max_enum_aux : List (Nat × DScand) → List (Nat × DScand) → List (Nat × DScand)
  | high, [] => high
  | [], x :: rest => all_max_enum_aux [x] rest
  | h :: hs, x :: rest =>
    if x.2.score > h.2.score then all_max_enum_aux [x] rest
    else if x.2.score == h.2.score then all_max_enum_aux (h :: hs ++ [x]) rest
    else all_max_enum_aux (h :: hs) rest

/-- Append an index to a key's group in the insertion-ordered dict
hightoks (`hightoks.get(tok.text)` / append / fresh singleton). -/
def upsert_group (groups : List (String × List (Nat × Nat))) (key : String)
    (idx : Nat × Nat) : List (String × List (Nat × Nat)) :=
  if groups.any (fun g => g.1 == key) then
    groups.map (fun g => if g.1 == key then (g.1, g.2 ++ [idx]) else g)
  else groups ++ [(key, [idx])]

/-- Step B collection of DSoptions.penalize_duplicates: every best-scoring
candidate of every position (decorators included, singleton groups
included), grouped by text in an insertion-ordered dict. -/
def stepB_groups (ps : List DSpos) : List (String × List (Nat × Nat)) :=
  (py_enum ps).foldl (fun groups ip =>
    (all_max_enum_aux [] (py_enum ip.2.cands)).foldl (fun groups jc =>
      upsert_group groups jc.2.text (ip.1, jc.1)) groups) []

/-- The candidate at (i, j). -/
def cand_at (ps : List DSpos) (ij : Nat × Nat) : Option DScand :=
  (ps.get? ij.1).bind (fun p => p.cands.get? ij.2)

/-- Champion of one step-B group: the first strictly-highest-scoring
instance, scores read from the current model. -/
def stepB_champion (ps : List DSpos) (group : List (Nat × Nat)) :
    Option (Nat × Nat) :=
  group.foldl (fun best ij =>
    match cand_at ps ij with
    | none => best
    | some tok =>
      match best with
      | none => some ij
      | some bij =>
        match cand_at ps bij with
        | none => best
        | some btok => if tok.score > btok.score then some ij else best) none

/-- Step B penalty for one group: every candidate anywhere in the model
whose text equals the key, other than the champion (`tok != highest` is an
identity test), gets the penalty. -/
def stepB_apply_group (dupepenalty : Int) (ps : List DSpos) (key : String)
    (group : List (Nat × Nat)) : List DSpos :=
  match stepB_champion ps group with
  | none => ps
  | some champ =>
    mapi (fun i p =>
      let cands2 := mapi (fun j tok =>
        if tok.text == key && !((i, j) == champ) then
          tok.add_score dupepenalty
        else tok) p.cands
      { p with cands := cands2 }) ps

/-- Step B of DSoptions.penalize_duplicates. -/
def penalize_duplicates_stepB (dupepenalty : Int) (opts : DSoptions) : DSoptions :=
  let groups := stepB_groups opts.positions
  let ps2 := groups.foldl (fun ps g => stepB_apply_group dupepenalty ps g.1 g.2) opts.positions
  { opts with positions := ps2 }

/-- DSoptions.penalize_duplicates: step A then step B. -/
def penalize_duplicates (dupepenalty : Int) (opts : DSoptions) : DSoptions :=
  penalize_duplicates_stepB dupepenalty (penalize_duplicates_stepA dupepenalty opts)

/-- DSoptions.get_format_tokens: per position the highest-scoring
candidate, positions with empty candidate lists contribute nothing. -/
def get_format_tokens (opts : DSoptions) : List DScand :=
  opts.positions.filterMap (fun p => get_max_score p.cands)

/-- Python `text.replace('%', '%%')`. -/
def replace_percent_text (s : String) : String :=
  ⟨s.data.foldr (fun c acc => if c = '%' then '%' :: '%' :: acc else c :: acc) []⟩

/-- The text contributed to the format string by one selected candidate. -/
def format_token_text (replace_percent : Bool) (tok : DScand) : String :=
  if replace_percent && tok.is_decorator then replace_percent_text tok.text
  else tok.text

/-- DSoptions.get_format_string.  validtokens is incremented once per
selected token, i.e. it counts the positions with nonempty candidate
lists. -/
def get_format_string (opts : DSoptions)
    (replace_percent blank_if_unrecognized : Bool) : String :=
  let tokens := get_format_tokens opts
  let string := tokens.foldl (fun s tok => s ++ format_token_text replace_percent tok) ""
  let founddir := tokens.any (fun tok => !(tok.is_decorator))
  let validtokens := tokens.length
  if !blank_if_unrecognized
      || (founddir && (validtokens == opts.positions.length)) then string
  else ""

/-- DSoptions.initialize (named initialize_with_dates here): tokenize the
first sample, build the model from it, cull with every sample, then cull
stray decorators.  On an empty sample sequence Python raises IndexError at
`dates[0]`, modelled by `none`.  (A single string input is wrapped into a
one-element list before this point; inputs here are already lists.) -/
def initialize_with_dates (opts : DSoptions) (dates : List String) :
    Option DSoptions :=
  match dates with
  | [] => none
  | d0 :: _ =>
    let o1 := init_with_date_tokens opts (tokenize_date d0)
    (cull_with_dates o1 dates).map cull_decorators

/-- DSoptions.process: apply the configured rules, then (for a truthy
dupepenalty) penalize duplicates. -/
def process (dupepenalty : Int) (opts : DSoptions) : Option DSoptions :=
  (apply_rules opts opts.formatrules).map (fun o2 =>
    if dupepenalty ≠ 0 then penalize_duplicates dupepenalty o2 else o2)

/-- DSoptions.detect_format with all four option arguments supplied
(Python replaces a falsy argument by the corresponding default; the
defaulted entry point is detect_format_default below). -/
def detect_format (dates : List String) (formatRules : List DSrule)
    (numOptions : List NumOption) (wordOptions : List WordOption)
    (tzOffsetDirective : String) : Option DSoptions :=
  let options : DSoptions := ⟨[], numOptions, wordOptions, tzOffsetDirective, formatRules⟩
  (initialize_with_dates options dates).bind (process (-2))

/-! Default directive catalog and rule tables (class attributes of
DSoptions). -/

def UNCOMMON : Int := 1
def COMMON : Int := 2

def dir_y : NumOption := ⟨"%y", COMMON, (0, 99)⟩
def dir_Y : NumOption := ⟨"%Y", COMMON, (0, 9999)⟩
def dir_m : NumOption := ⟨"%m", COMMON, (1, 12)⟩
def dir_d : NumOption := ⟨"%d", COMMON, (1, 31)⟩
def dir_H : NumOption := ⟨"%H", COMMON, (0, 23)⟩
def dir_I : NumOption := ⟨"%I", COMMON, (1, 12)⟩
def dir_M : NumOption := ⟨"%M", COMMON, (0, 59)⟩
def dir_S : NumOption := ⟨"%S", COMMON, (0, 61)⟩
def dir_g : NumOption := ⟨"%g", UNCOMMON, (0, 99)⟩
def dir_G : NumOption := ⟨"%G", UNCOMMON, (0, 9999)⟩
def dir_V : NumOption := ⟨"%V", UNCOMMON, (1, 53)⟩
def dir_u : NumOption := ⟨"%u", UNCOMMON, (1, 7)⟩
def dir_j : NumOption := ⟨"%j", UNCOMMON, (1, 366)⟩
def dir_C : NumOption := ⟨"%C", UNCOMMON, (0, 99)⟩
def dir_w : NumOption := ⟨"%w", UNCOMMON, (0, 6)⟩
def dir_U : NumOption := ⟨"%U", UNCOMMON, (0, 53)⟩
def dir_W : NumOption := ⟨"%W", UNCOMMON, (0, 53)⟩

def dir_b : WordOption :=
  ⟨"%b", COMMON,
    ["jan", "feb", "mar", "apr", "may", "jun", "jul", "aug", "sep", "oct", "nov", "dec"], 0⟩
def dir_B : WordOption :=
  ⟨"%B", COMMON,
    ["january", "february", "march", "april", "may", "june", "july", "august",
      "september", "october", "november", "december"], 0⟩
def dir_p : WordOption := ⟨"%p", COMMON, ["am", "pm"], 0⟩
def dir_a : WordOption := ⟨"%a", UNCOMMON, ["sun", "mon", "tue", "wed", "thu", "fri", "sat"], 0⟩
def dir_A : WordOption :=
  ⟨"%A", UNCOMMON,
    ["sunday", "monday", "tuesday", "wednesday", "thursday", "friday", "saturday"], 0⟩
def dir_Z : WordOption := ⟨"%Z", UNCOMMON, ["utc", "gmt"], 0⟩

def dir_z : String := "%z"

def rule_delim_date : DSrule :=
  .delimiter (.tup ["%d", "%m", "%y", "%Y"]) ["-", "/"] 2 0
def rule_delim_ISO_date : DSrule :=
  .delimiter (.tup ["%G", "%g", "%V", "%u", "%j"]) ["-", "W"] 2 (-3)
def rule_delim_time : DSrule :=
  .delimiter (.tup ["%H", "%I", "%M", "%S"]) [":"] 2 0
def rule_range_years : DSrule :=
  .likelyrange (.tup ["%Y", "%G"]) (1000, 3000) 1 (-1)
def rule_range_cent : DSrule :=
  .likelyrange (.str "%C") (10, 30) 0 (-1)
def rule_range_secs : DSrule :=
  .likelyrange (.str "%S") (0, 59) 0 (-1)
def rule_pattern_hms : DSrule :=
  .pattern [.tup ["%H", "%I"], .str ":", .str "%M", .str ":", .str "%S"] 1 0 3 0
def rule_pattern_hm : DSrule :=
  .pattern [.tup ["%H", "%I"], .str ":", .str "%M"] 1 0 1 0
def rule_pattern_12hr : DSrule :=
  .pattern [.str "%I", .str "%M", .str "%p"] 4 0 3 0
def rule_pattern_tz : DSrule :=
  .pattern [.str "%Z", .str "%z"] 1 0 2 0
def rule_pattern_US_date : DSrule :=
  .pattern [.tup ["%m", "%b", "%B"], .str "%d", .tup ["%y", "%Y"]] 2 0 4 0
def rule_pattern_US_Bd : DSrule :=
  .pattern [.str "%d", .tup ["%m", "%b", "%B"], .tup ["%y", "%Y"]] 2 0 3 0
def rule_pattern_EU_date : DSrule :=
  .pattern [.tup ["%B", "%b"], .str " ", .str "%d"] 1 0 2 0
def rule_pattern_EU_dB : DSrule :=
  .pattern [.str "%d", .str " ", .tup ["%B", "%b"]] 1 0 2 0
def rule_pattern_ymd : DSrule :=
  .pattern [.str "%Y", .str "-", .str "%m", .str "-", .str "%d"] 1 0 4 0
def rule_pattern_verbose_day : DSrule :=
  .pattern [.str "day", .str "%d"] 4 0 2 0
def rule_pattern_verbose_month : DSrule :=
  .pattern [.str "month", .tup ["%m", "%b", "%B"]] 4 0 2 0
def rule_pattern_verbose_year : DSrule :=
  .pattern [.str "year", .tup ["%Y", "%y"]] 4 0 2 0
def rule_pattern_verbose_time : DSrule :=
  .pattern [.str "time", .tup ["%H", "%I"]] 4 0 2 0
def rule_pattern_ISO_W : DSrule :=
  .pattern [.str "W", .str "%V"] 1 0 2 0
def rule_pattern_ISO_date : DSrule :=
  .pattern [.tup ["%G", "%g"], .str "-", .str "W", .str "%V", .str "-", .str "%u"] 1 0 4 0
def rule_pattern_ISO_week : DSrule :=
  .pattern [.tup ["%G", "%g"], .str "-", .str "W", .str "%V"] 1 0 3 0
def rule_pattern_ISO_ordinal : DSrule :=
  .pattern [.tup ["%G", "%g"], .str "-", .str "%j"] 1 0 2 0
def rule_mutexc_24h_12h : DSrule :=
  .mutexclusion [.str "%H", .tup ["%I", "%p"]] 0 (-2)
def rule_mutexc_yr_digits : DSrule :=
  .mutexclusion [.str "%Y", .str "%y", .str "%G", .str "%g"] 0 (-2)
def rule_mutexc_yr_cent : DSrule :=
  .mutexclusion [.tup ["%Y", "%G"], .str "%C"] 0 (-2)
def rule_mutexc_months : DSrule :=
  .mutexclusion [.str "%B", .str "%b", .str "%m"] 0 (-2)
def rule_mutexc_wkdays : DSrule :=
  .mutexclusion [.str "%A", .str "%a", .str "%u", .str "%w"] 0 (-2)
def rule_mutexc_weeks : DSrule :=
  .mutexclusion [.str "%V", .str "%U", .str "%W"] 0 (-2)

/-- DSoptions.get_default_numoptions. -/
def get_default_numoptions : List NumOption :=
  [dir_y, dir_Y, dir_m, dir_d, dir_H, dir_I, dir_M, dir_S,
    dir_g, dir_G, dir_V, dir_u, dir_C, dir_w, dir_j, dir_W, dir_U]

/-- DSoptions.get_default_wordoptions. -/
def get_default_wordoptions : List WordOption :=
  [dir_b, dir_B, dir_p, dir_a, dir_A, dir_Z]

/-- DSoptions.get_default_rules. -/
def get_default_rules : List DSrule :=
  [rule_delim_date, rule_delim_ISO_date, rule_delim_time,
    rule_range_years, rule_range_cent, rule_range_secs,
    rule_pattern_hms, rule_pattern_hm, rule_pattern_12hr, rule_pattern_tz,
    rule_pattern_US_date, rule_pattern_US_Bd,
    rule_pattern_EU_date, rule_pattern_EU_dB,
    rule_pattern_ymd,
    rule_pattern_verbose_day, rule_pattern_verbose_month,
    rule_pattern_verbose_year, rule_pattern_verbose_time,
    rule_pattern_ISO_W, rule_pattern_ISO_date,
    rule_pattern_ISO_week, rule_pattern_ISO_ordinal,
    rule_mutexc_24h_12h, rule_mutexc_yr_digits, rule_mutexc_yr_cent,
    rule_mutexc_months, rule_mutexc_wkdays, rule_mutexc_weeks]

/-- DSoptions.detect_format with the four optional arguments left at their
defaults. -/
def detect_format_default (dates : List String) : Option DSoptions :=
  detect_format dates get_default_rules get_default_numoptions
    get_default_wordoptions dir_z

/-- detect_format followed by get_format_string() with its default
arguments (replace_percent = True, blank_if_unrecognized = True). -/
def detect_format_string_default (dates : List String) : Option String :=
  (detect_format_default dates).map (fun o => get_format_string o true true)

/-- The characters of a token list's texts, concatenated in order. -/
def toks_chars (ts : List DTok) : List Char :=
  (ts.map (fun t => t.text.data)).flatten

/-- The concatenation of a token list's texts. -/
def concat_texts (ts : List DTok) : String :=
  ts.foldl (fun a t => a ++ t.text) ""

/-- A concrete model used to exercise the duplicate resolver: a literal
that is best-scoring at two positions, and two numeric directives each
solitary-best at one of two positions. -/
def dup_example : DSoptions :=
  ⟨[⟨[DScand.dec "x" 0], none⟩, ⟨[DScand.dec "x" 0], none⟩,
    ⟨[DScand.num dir_M 3, DScand.num dir_S 1], some (4, 4)⟩,
    ⟨[DScand.num dir_M 1, DScand.num dir_S 2], some (4, 4)⟩], [], [], "%z", []⟩

/-- A concrete model used to exercise the pattern rule: the two-element
sequence a, b occurs twice back to back. -/
def pattern_example : DSoptions :=
  ⟨[⟨[DScand.dec "a" 0], none⟩, ⟨[DScand.dec "b" 0], none⟩,
    ⟨[DScand.dec "a" 0], none⟩, ⟨[DScand.dec "b" 0], none⟩], [], [], "%z", []⟩

/-! Auxiliary notions used only to state and prove properties (not part of
the translated code). -/

/-- The per-candidate condition under which culling against date token
dtok keeps the candidate and leaves the range rng unchanged. -/
def cull_keeps (dtok : DTok) (rng : Option (Int × Int)) : DScand → Prop
  | .dec t _ => t = dtok.text
  | .num o _ => dtok.kind = DSkind.num ∧
      o.includesvalue (parse_int dtok.text) = true ∧
      rng = some (parse_int dtok.text, parse_int dtok.text)
  | .word o _ => dtok.kind = DSkind.word ∧ o.includesvalue dtok.text = true
  | .tz _ _ => dtok.kind = DSkind.tz

/-- r2 is r with its minimum possibly decreased and its maximum possibly
increased (and never cleared). -/
def range_widens (r r2 : Option (Int × Int)) : Prop :=
  ∀ lo hi, r = some (lo, hi) → ∃ lo2 hi2, r2 = some (lo2, hi2) ∧ lo2 ≤ lo ∧ hi ≤ hi2

/-- numranges[i], None when out of range. -/
def numrange_at (ps : List DSpos) (i : Nat) : Option (Int × Int) :=
  match ps.get? i with
  | some p => p.numrange
  | none => none

/-- Whether a candidate list contains a Numeric candidate. -/
def has_num_cand (cands : List DScand) : Bool :=
  cands.any (fun c => c.kind == DSkind.num)

/-- The invariant of C10: every position holding a Numeric candidate has
an established numrange. -/
def NumInv (opts : DSoptions) : Prop :=
  ∀ p ∈ opts.positions, has_num_cand p.cands = true → p.numrange.isSome = true

/-- The score-free part of a candidate. -/
def cand_sig (c : DScand) : DSkind × String := (c.kind, c.text)

/-- The score-free part of a position. -/
def pos_shape (p : DSpos) : List (DSkind × String) × Option (Int × Int) :=
  (p.cands.map cand_sig, p.numrange)

/-- The score-free part of the model: rules change only scores. -/
def opts_shape (opts : DSoptions) : List (List (DSkind × String) × Option (Int × Int)) :=
  opts.positions.map pos_shape

/-- NumInv read off a position's shape. -/
def shape_num_ok (sh : List (DSkind × String) × Option (Int × Int)) : Prop :=
  (sh.1.any (fun s => s.1 == DSkind.num)) = true → sh.2.isSome = true

/-- A rule configuration on which apply cannot raise (a pattern rule with
an empty sequence raises IndexError as soon as a position is nonempty). -/
def rule_total : DSrule → Bool
  | .pattern seq _ _ _ _ => !seq.isEmpty
  | _ => true

/-- One step of the step-B champion fold (the loop body of
stepB_champion with the case split on the running best pulled out, so
that lemmas can reason about it). -/
def champ_step (ps : List DSpos) : Option (Nat × Nat) → Nat × Nat → Option (Nat × Nat)
  | none, ij =>
    match cand_at ps ij with
    | none => none
    | some _ => some ij
  | some bij, ij =>
    match cand_at ps ij with
    | none => some bij
    | some tok =>
      match cand_at ps bij with
      | none => some bij
      | some btok => if tok.score > btok.score then some ij else some bij

/-- The group stored in the step-B dict for a key, if any. -/
def group_of (groups : List (String × List (Nat × Nat))) (key : String) :
    Option (List (Nat × Nat)) :=
  (groups.find? (fun g => g.1 == key)).map (fun g => g.2)

/-- Well-formedness of a step-B dict with respect to a per-entry property:
keys are pairwise distinct and every group is a nonempty list of indices
satisfying the property for its key. -/
def GroupsOK (P : String → Nat × Nat → Prop)
    (groups : List (String × List (Nat × Nat))) : Prop :=
  groups.Pairwise (fun g1 g2 => g1.1 ≠ g2.1) ∧
  ∀ g ∈ groups, g.2 ≠ [] ∧ ∀ ij ∈ g.2, P g.1 ij

/-- c is the candidate selected from cands by maximum score with the first
occurrence winning ties: it sits at an index k, no candidate scores
higher, and every candidate before k scores strictly lower. -/
def first_max_at (cands : List DScand) (c : DScand) : Prop :=
  ∃ k, ∃ hk : k < cands.length, c = cands.get ⟨k, hk⟩ ∧
    (∀ m (hm : m < cands.length), (cands.get ⟨m, hm⟩).score ≤ c.score) ∧
    (∀ m (hm : m < cands.length), m < k → (cands.get ⟨m, hm⟩).score < c.score)

/-! ## Theorems -/

theorem toks_chars_nil : toks_chars [] = [] := rfl

theorem toks_chars_cons (t : DTok) (ts : List DTok) :
    toks_chars (t :: ts) = t.text.data ++ toks_chars ts := by
  simp [toks_chars]

/-- The first tokenizer pass emits exactly the pending run followed by the
remaining characters. -/
theorem tokenize_pass1_chars (cs : List Char) : ∀ acc : Option (DSkind × List Char),
    toks_chars (tokenize_pass1 acc cs) =
      (match acc with | none => [] | some kt => kt.2) ++ cs := by
  induction cs with
  | nil =>
    intro acc
    match acc with
    | none => simp [tokenize_pass1, toks_chars]
    | some (k, t) => simp [tokenize_pass1, toks_chars]
  | cons c cs ih =>
    intro acc
    match acc with
    | none => simpa [tokenize_pass1] using ih (some (classify_char c, [c]))
    | some (k, t) =>
      rw [tokenize_pass1]
      by_cases h : classify_char c = k ∧ k ≠ DSkind.tz
      · rw [if_pos h, ih]
        simp
      · rw [if_neg h, toks_chars_cons, ih]
        simp

/-- The second tokenizer pass preserves the concatenation of texts. -/
theorem tokenize_pass2_chars (prev : Option DTok) (l : List DTok) :
    toks_chars (tokenize_pass2 prev l) = toks_chars l := by
  induction prev, l using tokenize_pass2.induct with
  | case1 prev => rfl
  | case2 prev tok h =>
    rw [tokenize_pass2, if_pos h]
    simp [toks_chars]
  | case3 prev tok h =>
    rw [tokenize_pass2, if_neg h]
  | case4 prev tok next rest2 h1 h2 ih =>
    rw [tokenize_pass2, if_pos h1, if_pos h2]
    rw [toks_chars_cons, toks_chars_cons, toks_chars_cons, ih, String.data_append]
    simp
  | case5 prev tok next rest2 h1 h2 ih =>
    rw [tokenize_pass2, if_pos h1, if_neg h2]
    simp [toks_chars_cons, ih]
  | case6 prev tok next rest2 h1 ih =>
    rw [tokenize_pass2, if_neg h1]
    simp [toks_chars_cons, ih]

theorem concat_texts_data (ts : List DTok) :
    ∀ a : String, (ts.foldl (fun a t => a ++ t.text) a).data = a.data ++ toks_chars ts := by
  induction ts with
  | nil => intro a; simp [toks_chars]
  | cons t ts ih =>
    intro a
    simp only [List.foldl_cons, ih, String.data_append, toks_chars_cons, List.append_assoc]

/-- C7: tokenize_date covers the entire input with no gaps or overlaps:
the texts of the returned tokens, concatenated in order, equal the input
string exactly; the empty input yields the empty token list. -/
theorem claim_C7 :
    (∀ s : String, concat_texts (tokenize_date s) = s) ∧ tokenize_date "" = [] := by
  constructor
  · intro s
    apply String.ext
    rw [concat_texts, concat_texts_data, tokenize_date, tokenize_pass2_chars,
      tokenize_pass1_chars]
    rfl
  · rfl

/-- A run of digit characters extends the pending numeric run to the end
of the input. -/
theorem pass1_digit_run (cs : List Char) :
    ∀ t, (∀ c ∈ cs, classify_char c = DSkind.num) →
      tokenize_pass1 (some (DSkind.num, t)) cs = [⟨DSkind.num, ⟨t ++ cs⟩⟩] := by
  induction cs with
  | nil => intro t _; simp [tokenize_pass1]
  | cons c cs ih =>
    intro t h
    have hc : classify_char c = DSkind.num := h c (by simp)
    rw [tokenize_pass1]
    simp only [hc, ne_eq, and_self, reduceCtorEq, not_false_eq_true, if_true]
    rw [ih (t ++ [c]) (fun c2 hc2 => h c2 (by simp [hc2]))]
    simp

/-- A pending sign run followed by a nonempty all-digit tail yields the
sign token and one numeric token. -/
theorem pass1_tz_then_digits (d : String)
    (hd : ∀ c ∈ d.data, classify_char c = DSkind.num) (hne : d.data ≠ []) :
    ∀ t, tokenize_pass1 (some (DSkind.tz, t)) d.data =
      [⟨DSkind.tz, ⟨t⟩⟩, ⟨DSkind.num, d⟩] := by
  intro t
  match hdata : d.data, hd, hne with
  | c :: cs, hd, _ =>
    have hc : classify_char c = DSkind.num := hd c (by simp)
    rw [tokenize_pass1]
    simp only [hc, ne_eq, reduceCtorEq, false_and, if_false]
    have hcs : ∀ c2 ∈ cs, classify_char c2 = DSkind.num := fun c2 h2 => hd c2 (by simp [h2])
    rw [pass1_digit_run cs [c] hcs]
    have : (⟨c :: cs⟩ : String) = d := by rw [← hdata]
    simp [this]

/-- C6: in the tokenizer's second pass, a sign token followed by a digit
run is merged into a single TimezoneOffset token (text = sign plus digits)
exactly when the digit run is 4 characters long and the sign is not
preceded by a numeric or sign token; a failing sign token is kept as a
Literal, never dropped, and a digit run of any other length stays a
separate Numeric token.  (Here: a bare sign before the digits, a sign
preceded by a numeric token, and a sign preceded by a word token.) -/
theorem claim_C6 (d : String) (hd : ∀ c ∈ d.data, classify_char c = DSkind.num)
    (hne : d.data ≠ []) :
    (d.length = TIMEZONE_LENGTH →
      tokenize_date ("+" ++ d) = [⟨DSkind.tz, "+" ++ d⟩]) ∧
    (d.length ≠ TIMEZONE_LENGTH →
      tokenize_date ("+" ++ d) = [⟨DSkind.dec, "+"⟩, ⟨DSkind.num, d⟩]) ∧
    (tokenize_date ("1+" ++ d) =
      [⟨DSkind.num, "1"⟩, ⟨DSkind.dec, "+"⟩, ⟨DSkind.num, d⟩]) ∧
    (d.length = TIMEZONE_LENGTH →
      tokenize_date ("a+" ++ d) = [⟨DSkind.word, "a"⟩, ⟨DSkind.tz, "+" ++ d⟩]) := by
  have hplus : ("+" ++ d).data = '+' :: d.data := by
    rw [String.data_append]; rfl
  have hpass1 : tokenize_pass1 none (("+" ++ d).data) =
      [⟨DSkind.tz, "+"⟩, ⟨DSkind.num, d⟩] := by
    rw [hplus, tokenize_pass1]
    have h43 : classify_char '+' = DSkind.tz := by decide
    rw [h43, pass1_tz_then_digits d hd hne]
  refine ⟨?_, ?_, ?_, ?_⟩
  · intro hlen
    rw [tokenize_date, hpass1, tokenize_pass2]
    have : (⟨DSkind.num, d⟩ : DTok).text.length == TIMEZONE_LENGTH := by
      simp [hlen]
    simp [tz_check_prev, this, tokenize_pass2, String.data_append]
  · intro hlen
    rw [tokenize_date, hpass1, tokenize_pass2]
    have : ((⟨DSkind.num, d⟩ : DTok).text.length == TIMEZONE_LENGTH) = false := by
      simp [hlen]
    simp [tz_check_prev, this, tokenize_pass2]
  · have h1 : ("1+" ++ d).data = '1' :: '+' :: d.data := by
      rw [String.data_append]; rfl
    rw [tokenize_date, h1, tokenize_pass1]
    have h1c : classify_char '1' = DSkind.num := by decide
    rw [h1c, tokenize_pass1]
    have h43 : classify_char '+' = DSkind.tz := by decide
    rw [h43]
    simp only [ne_eq, reduceCtorEq, false_and, if_false]
    rw [pass1_tz_then_digits d hd hne, tokenize_pass2]
    simp [tz_check_prev, tokenize_pass2]
  · intro hlen
    have h1 : ("a+" ++ d).data = 'a' :: '+' :: d.data := by
      rw [String.data_append]; rfl
    rw [tokenize_date, h1, tokenize_pass1]
    have h1c : classify_char 'a' = DSkind.word := by decide
    rw [h1c, tokenize_pass1]
    have h43 : classify_char '+' = DSkind.tz := by decide
    rw [h43]
    simp only [ne_eq, reduceCtorEq, false_and, if_false]
    rw [pass1_tz_then_digits d hd hne, tokenize_pass2]
    have : (⟨DSkind.num, d⟩ : DTok).text.length == TIMEZONE_LENGTH := by
      simp [hlen]
    simp [tz_check_prev, this, tokenize_pass2, String.data_append]

/-- Witness for claim_C6 at the concrete digit run 0100. -/
theorem claim_C6_witness :
    tokenize_date ("+" ++ "0100") = [⟨DSkind.tz, "+" ++ "0100"⟩] :=
  (claim_C6 "0100" (by decide) (by decide)).1 (by decide)

set_option maxRecDepth 200000 in
/-- C1: with all four optional parameters at their defaults, detect_format
on the two samples 2013-04-15 14:04:11 and 2013-10-25 10:50:13 followed by
get_format_string() with default arguments yields %Y-%m-%d %H:%M:%S. -/
theorem claim_C1 :
    detect_format_string_default ["2013-04-15 14:04:11", "2013-10-25 10:50:13"] =
      some "%Y-%m-%d %H:%M:%S" := by rfl

/-- Counterexample to C2 as stated: on the empty sample sequence,
detect_format raises IndexError at `dates[0]` (modelled as `none`) instead
of returning a result. -/
theorem claim_C2_counterexample : detect_format_default [] = none := rfl

/-- Counterexample to C3 as stated: running the duplicate resolver on
dup_example penalizes the literal x that is best-scoring at positions 0
and 1 (position 1 drops to -2), and the singleton group of the uniquely
best %M at position 2 penalizes the non-best-scoring %M at position 3
(which drops to -1) even though no group with more than one member
contains %M. -/
theorem claim_C3_counterexample :
    cand_at (penalize_duplicates (-2) dup_example).positions (1, 0) =
        some (DScand.dec "x" (-2)) ∧
      cand_at (penalize_duplicates (-2) dup_example).positions (3, 0) =
        some (DScand.num dir_M (-1)) := by
  constructor <;> rfl

/-- Counterexample to C4 as stated: on pattern_example, the sequence a, b
completes at positions 0-1 and again at positions 2-3; because the match
accumulator is not cleared on completion, the candidates of the first
occurrence are submitted again with the second one and receive the
positive delta twice (score 2, not posscore = 1). -/
theorem claim_C4_counterexample :
    DSPatternRule_apply [.str "a", .str "b"] 1 0 1 0 pattern_example =
      some ⟨[⟨[DScand.dec "a" 2], none⟩, ⟨[DScand.dec "b" 2], none⟩,
        ⟨[DScand.dec "a" 1], none⟩, ⟨[DScand.dec "b" 1], none⟩], [], [], "%z", []⟩ := by
  rfl

/-- A candidate list in which every candidate satisfies cull_keeps is
culled to itself, with the range untouched. -/
theorem cull_pos_go_keep (dtok : DTok) :
    ∀ (cands : List DScand) (rng : Option (Int × Int)),
      (∀ c ∈ cands, cull_keeps dtok rng c) →
      cull_pos_go dtok cands rng = some (cands, rng) := by
  intro cands
  induction cands with
  | nil => intro rng _; rfl
  | cons c rest ih =>
    intro rng h
    have hc := h c (List.mem_cons_self c rest)
    have hrest := fun c2 h2 => h c2 (List.mem_cons_of_mem c h2)
    cases c with
    | dec t s =>
      simp only [cull_pos_go]
      rw [if_pos (by simp [cull_keeps] at hc; simp [hc]), ih rng hrest]
      rfl
    | num o s =>
      obtain ⟨h1, h2, h3⟩ := hc
      simp only [cull_pos_go]
      rw [if_pos (by simp [h1]), if_pos h2, h3]
      simp only [min_self, max_self, ← h3]
      rw [ih rng hrest]
      rfl
    | word o s =>
      obtain ⟨h1, h2⟩ := hc
      simp only [cull_pos_go]
      rw [if_pos (by simp [h1]), if_pos h2, ih rng hrest]
      rfl
    | tz t s =>
      simp only [cull_pos_go]
      rw [if_pos (by simp [cull_keeps] at hc; simp [hc]), ih rng hrest]
      rfl

/-- Every candidate created by init_pos from a date token is kept when
culling against the very same token. -/
theorem init_pos_keeps (opts : DSoptions) (tok : DTok) :
    ∀ c ∈ (init_pos opts tok).cands,
      cull_keeps tok (init_pos opts tok).numrange c := by
  intro c hc
  cases htok : tok.kind with
  | num =>
    simp only [init_pos, htok] at hc ⊢
    simp only [List.mem_cons] at hc
    rcases hc with hc | hc
    · subst hc; exact rfl
    · have hne : ((opts.numoptions.filter
          (fun o => o.includesvalue (parse_int tok.text))).map
            (fun o => DScand.num o o.common)).isEmpty = false := by
        rcases ((opts.numoptions.filter
            (fun o => o.includesvalue (parse_int tok.text))).map
              (fun o => DScand.num o o.common)).eq_nil_or_concat with hn | ⟨l2, a, hn⟩
        · rw [hn] at hc; simp at hc
        · rw [hn]; simp
      simp only [hne, Bool.false_eq_true, if_false]
      simp only [List.mem_map, List.mem_filter] at hc
      obtain ⟨o, ⟨_, ho⟩, rfl⟩ := hc
      exact ⟨htok, ho, by simp⟩
  | word =>
    simp only [init_pos, htok] at hc ⊢
    simp only [List.mem_cons] at hc
    rcases hc with hc | hc
    · subst hc; exact rfl
    · simp only [List.mem_map, List.mem_filter] at hc
      obtain ⟨o, ⟨_, ho⟩, rfl⟩ := hc
      exact ⟨htok, ho⟩
  | tz =>
    simp only [init_pos, htok] at hc ⊢
    simp only [List.mem_cons, List.mem_singleton] at hc
    rcases hc with hc | hc | hc
    · subst hc; exact rfl
    · subst hc; exact htok
    · cases hc
  | dec =>
    simp only [init_pos, htok] at hc ⊢
    simp only [List.mem_singleton] at hc
    subst hc; exact rfl

/-- Culling a freshly initialized position against the token it was built
from changes nothing. -/
theorem cull_pos_init (opts : DSoptions) (tok : DTok) :
    cull_pos (init_pos opts tok) tok = some (init_pos opts tok) := by
  rw [cull_pos, cull_pos_go_keep tok (init_pos opts tok).cands
    (init_pos opts tok).numrange (init_pos_keeps opts tok)]
  rfl

/-- Culling the freshly initialized position list against the token list
it was built from changes nothing. -/
theorem cull_go_init (opts : DSoptions) :
    ∀ toks : List DTok,
      cull_go (toks.map (init_pos opts)) toks = some (toks.map (init_pos opts)) := by
  intro toks
  induction toks with
  | nil => rfl
  | cons t ts ih =>
    simp only [List.map_cons, cull_go, cull_pos_init, ih]
    rfl

/-- C8: culling is idempotent on the reference sample: for every date
string s, culling the model built by init_with_date_tokens from
tokenize_date(s) with tokenize_date(s) itself removes no candidate from
any position and leaves every observed numeric range unchanged. -/
theorem claim_C8 (numopts : List NumOption) (wordopts : List WordOption)
    (tzdir : String) (rules : List DSrule) (s : String) :
    cull_with_date_tokens
        (init_with_date_tokens ⟨[], numopts, wordopts, tzdir, rules⟩ (tokenize_date s))
        (tokenize_date s) =
      some (init_with_date_tokens ⟨[], numopts, wordopts, tzdir, rules⟩
        (tokenize_date s)) := by
  rw [cull_with_date_tokens, init_with_date_tokens]
  simp only [List.nil_append]
  rw [cull_go_init]
  rfl

theorem range_widens_refl (r : Option (Int × Int)) : range_widens r r :=
  fun lo hi h => ⟨lo, hi, h, le_refl lo, le_refl hi⟩

theorem range_widens_trans {a b c : Option (Int × Int)}
    (h1 : range_widens a b) (h2 : range_widens b c) : range_widens a c := by
  intro lo hi ha
  obtain ⟨lo2, hi2, hb, hlo2, hhi2⟩ := h1 lo hi ha
  obtain ⟨lo3, hi3, hcc, hlo3, hhi3⟩ := h2 lo2 hi2 hb
  exact ⟨lo3, hi3, hcc, le_trans hlo3 hlo2, le_trans hhi2 hhi3⟩

/-- Culling one position only ever widens its observed range. -/
theorem cull_pos_go_widens (dtok : DTok) :
    ∀ (cands : List DScand) (rng : Option (Int × Int)) (l : List DScand)
      (rng2 : Option (Int × Int)),
      cull_pos_go dtok cands rng = some (l, rng2) → range_widens rng rng2 := by
  intro cands
  induction cands with
  | nil =>
    intro rng l rng2 h
    simp only [cull_pos_go, Option.some.injEq, Prod.mk.injEq] at h
    rw [← h.2]
    exact range_widens_refl rng
  | cons c rest ih =>
    intro rng l rng2 h
    cases c with
    | dec t s =>
      simp only [cull_pos_go] at h
      split at h
      · rw [Option.map_eq_some'] at h
        obtain ⟨⟨l1, r1⟩, hgo, heq⟩ := h
        simp only [Prod.mk.injEq] at heq
        rw [← heq.2]
        exact ih rng l1 r1 hgo
      · exact ih rng l rng2 h
    | num o s =>
      simp only [cull_pos_go] at h
      split at h
      · split at h
        · cases hr : rng with
          | none => rw [hr] at h; cases h
          | some lohi =>
            obtain ⟨lo, hi⟩ := lohi
            rw [hr] at h
            simp only at h
            rw [Option.map_eq_some'] at h
            obtain ⟨⟨l1, r1⟩, hgo, heq⟩ := h
            simp only [Prod.mk.injEq] at heq
            rw [← heq.2]
            refine range_widens_trans (b := some (min (parse_int dtok.text) lo,
              max (parse_int dtok.text) hi)) ?_ (ih _ l1 r1 hgo)
            intro lo3 hi3 heq3
            simp only [Option.some.injEq, Prod.mk.injEq] at heq3
            obtain ⟨h31, h32⟩ := heq3
            exact ⟨_, _, rfl, h31 ▸ min_le_right _ _, h32 ▸ le_max_right _ _⟩
        · exact ih rng l rng2 h
      · exact ih rng l rng2 h
    | word o s =>
      simp only [cull_pos_go] at h
      split at h
      · split at h
        · rw [Option.map_eq_some'] at h
          obtain ⟨⟨l1, r1⟩, hgo, heq⟩ := h
          simp only [Prod.mk.injEq] at heq
          rw [← heq.2]
          exact ih rng l1 r1 hgo
        · exact ih rng l rng2 h
      · exact ih rng l rng2 h
    | tz t s =>
      simp only [cull_pos_go] at h
      split at h
      · rw [Option.map_eq_some'] at h
        obtain ⟨⟨l1, r1⟩, hgo, heq⟩ := h
        simp only [Prod.mk.injEq] at heq
        rw [← heq.2]
        exact ih rng l1 r1 hgo
      · exact ih rng l rng2 h

theorem cull_pos_widens (p : DSpos) (t : DTok) (p2 : DSpos)
    (h : cull_pos p t = some p2) : range_widens p.numrange p2.numrange := by
  rw [cull_pos, Option.map_eq_some'] at h
  obtain ⟨⟨l, r⟩, hgo, heq⟩ := h
  rw [← heq]
  exact cull_pos_go_widens t p.cands p.numrange l r hgo

theorem cull_go_widens :
    ∀ (ps : List DSpos) (toks : List DTok) (ps2 : List DSpos),
      cull_go ps toks = some ps2 →
      ∀ i, range_widens (numrange_at ps i) (numrange_at ps2 i) := by
  intro ps
  induction ps with
  | nil =>
    intro toks ps2 h i
    cases toks <;> simp only [cull_go, Option.some.injEq] at h <;>
      rw [← h] <;> exact range_widens_refl _
  | cons p ps ih =>
    intro toks ps2 h i
    cases toks with
    | nil =>
      simp only [cull_go, Option.some.injEq] at h
      rw [← h]
      exact range_widens_refl _
    | cons t ts =>
      simp only [cull_go] at h
      cases hcp : cull_pos p t with
      | none => rw [hcp] at h; cases h
      | some p2 =>
        rw [hcp] at h
        rw [Option.map_eq_some'] at h
        obtain ⟨l, hgo, heq⟩ := h
        rw [← heq]
        cases i with
        | zero => simpa [numrange_at] using cull_pos_widens p t p2 hcp
        | succ n => simpa [numrange_at] using ih ts l hgo n

theorem cull_with_date_tokens_widens (opts : DSoptions) (toks : List DTok)
    (o2 : DSoptions) (h : cull_with_date_tokens opts toks = some o2) :
    ∀ i, range_widens (numrange_at opts.positions i) (numrange_at o2.positions i) := by
  rw [cull_with_date_tokens, Option.map_eq_some'] at h
  obtain ⟨l, hgo, heq⟩ := h
  rw [← heq]
  exact cull_go_widens opts.positions toks l hgo

theorem cull_with_dates_widens :
    ∀ (dates : List String) (opts o2 : DSoptions),
      cull_with_dates opts dates = some o2 →
      ∀ i, range_widens (numrange_at opts.positions i) (numrange_at o2.positions i) := by
  intro dates
  induction dates with
  | nil =>
    intro opts o2 h i
    simp only [cull_with_dates, Option.some.injEq] at h
    rw [← h]
    exact range_widens_refl _
  | cons d ds ih =>
    intro opts o2 h i
    simp only [cull_with_dates] at h
    cases hct : cull_with_date_tokens opts (tokenize_date d) with
    | none => rw [hct] at h; cases h
    | some omid =>
      rw [hct] at h
      exact range_widens_trans (cull_with_date_tokens_widens opts _ omid hct i)
        (ih omid o2 h i)

theorem cull_with_dates_append :
    ∀ (pre suf : List String) (opts : DSoptions),
      cull_with_dates opts (pre ++ suf) =
        (cull_with_dates opts pre).bind (fun o => cull_with_dates o suf) := by
  intro pre
  induction pre with
  | nil => intro suf opts; rfl
  | cons d ds ih =>
    intro suf opts
    simp only [List.cons_append, cull_with_dates]
    cases cull_with_date_tokens opts (tokenize_date d) with
    | none => rfl
    | some omid => exact ih suf omid

/-- C9: each position's observed numeric range only ever widens under
culling: the minimum never increases and the maximum never decreases,
for a single cull step as well as for a whole sample sequence, and a
sample sequence factors through any prefix (so the final range contains
the range held after any prefix). -/
theorem claim_C9 :
    (∀ (opts : DSoptions) (toks : List DTok) (o2 : DSoptions),
      cull_with_date_tokens opts toks = some o2 →
      ∀ i, range_widens (numrange_at opts.positions i) (numrange_at o2.positions i)) ∧
    (∀ (dates : List String) (opts o2 : DSoptions),
      cull_with_dates opts dates = some o2 →
      ∀ i, range_widens (numrange_at opts.positions i) (numrange_at o2.positions i)) ∧
    (∀ (pre suf : List String) (opts : DSoptions),
      cull_with_dates opts (pre ++ suf) =
        (cull_with_dates opts pre).bind (fun o => cull_with_dates o suf)) :=
  ⟨cull_with_date_tokens_widens, cull_with_dates_widens, cull_with_dates_append⟩

/-- Witness for claim_C9: one position holding %M with observed range
[4,4], culled with the sample 50, widens to [4,50]. -/
theorem claim_C9_witness :
    ∃ lo2 hi2,
      numrange_at [⟨[DScand.num dir_M 2], some ((4 : Int), (50 : Int))⟩] 0 =
          some (lo2, hi2) ∧ lo2 ≤ 4 ∧ 4 ≤ hi2 :=
  claim_C9.2.1 ["50"]
    ⟨[⟨[DScand.num dir_M 2], some (4, 4)⟩], [], [], "%z", []⟩
    ⟨[⟨[DScand.num dir_M 2], some (4, 50)⟩], [], [], "%z", []⟩
    (by rfl) 0 4 4 rfl

theorem has_num_sublist {l m : List DScand} (h : l.Sublist m)
    (h2 : has_num_cand l = true) : has_num_cand m = true := by
  rw [has_num_cand, List.any_eq_true] at h2 ⊢
  obtain ⟨c, hc, hk⟩ := h2
  exact ⟨c, h.subset hc, hk⟩

/-- A position built by init_pos has an established range whenever it
holds a numeric candidate. -/
theorem init_pos_numinv (opts : DSoptions) (tok : DTok)
    (h : has_num_cand (init_pos opts tok).cands = true) :
    (init_pos opts tok).numrange.isSome = true := by
  cases htok : tok.kind with
  | num =>
    simp only [init_pos, htok] at h ⊢
    rw [has_num_cand, List.any_cons] at h
    have hdec : ((DScand.dec tok.text 0).kind == DSkind.num) = false := rfl
    rw [hdec, Bool.false_or, List.any_eq_true] at h
    obtain ⟨c, hc, _⟩ := h
    have hne : ((opts.numoptions.filter
        (fun o => o.includesvalue (parse_int tok.text))).map
          (fun o => DScand.num o o.common)).isEmpty = false := by
      cases hl : (opts.numoptions.filter
          (fun o => o.includesvalue (parse_int tok.text))).map
            (fun o => DScand.num o o.common) with
      | nil => rw [hl] at hc; cases hc
      | cons a l => rfl
    rw [hne]
    rfl
  | word =>
    simp only [init_pos, htok] at h
    simp [has_num_cand, DScand.kind, List.any_map, Function.comp] at h
  | tz =>
    simp only [init_pos, htok] at h
    simp [has_num_cand, DScand.kind] at h
  | dec =>
    simp only [init_pos, htok] at h
    simp [has_num_cand, DScand.kind] at h

/-- init_with_date_tokens establishes the numeric-range invariant. -/
theorem numinv_init (opts : DSoptions) (toks : List DTok) (h : NumInv opts) :
    NumInv (init_with_date_tokens opts toks) := by
  intro p hp hnum
  simp only [init_with_date_tokens, List.mem_append, List.mem_map] at hp
  rcases hp with hp | ⟨tok, _, rfl⟩
  · exact h p hp hnum
  · exact init_pos_numinv opts tok hnum

/-- Culling one position cannot raise when the position satisfies the
numeric-range invariant, keeps a sub-list of the candidates, and never
clears an established range. -/
theorem cull_pos_go_ok (dtok : DTok) :
    ∀ (cands : List DScand) (rng : Option (Int × Int)),
      (has_num_cand cands = true → rng.isSome = true) →
      ∃ l rng2, cull_pos_go dtok cands rng = some (l, rng2) ∧
        l.Sublist cands ∧ (rng.isSome = true → rng2.isSome = true) := by
  intro cands
  induction cands with
  | nil =>
    intro rng _
    exact ⟨[], rng, rfl, List.Sublist.refl [], fun h => h⟩
  | cons c rest ih =>
    intro rng h
    have hrest : has_num_cand rest = true → rng.isSome = true :=
      fun h2 => h (has_num_sublist (List.sublist_cons_self c rest) h2)
    cases c with
    | dec t s =>
      obtain ⟨l, rng2, hgo, hsub, hsome⟩ := ih rng hrest
      by_cases hcond : (t == dtok.text) = true
      · exact ⟨.dec t s :: l, rng2,
          by simp only [cull_pos_go, if_pos hcond, hgo]; rfl,
          hsub.cons₂ _, hsome⟩
      · exact ⟨l, rng2, by simp only [cull_pos_go, if_neg hcond]; exact hgo,
          hsub.cons _, hsome⟩
    | num o s =>
      by_cases h1 : (dtok.kind == DSkind.num) = true
      · by_cases h2 : o.includesvalue (parse_int dtok.text) = true
        · have hsome0 : rng.isSome = true := by
            apply h
            rw [has_num_cand, List.any_cons]
            rfl
          cases hr : rng with
          | none => rw [hr] at hsome0; cases hsome0
          | some lohi =>
            obtain ⟨lo, hi⟩ := lohi
            obtain ⟨l, rng2, hgo, hsub, hsome⟩ :=
              ih (some (min (parse_int dtok.text) lo, max (parse_int dtok.text) hi))
                (fun _ => rfl)
            refine ⟨.num o s :: l, rng2, ?_, hsub.cons₂ _, fun _ => hsome rfl⟩
            simp only [cull_pos_go, if_pos h1, if_pos h2, hr, hgo]
            rfl
        · obtain ⟨l, rng2, hgo, hsub, hsome⟩ := ih rng hrest
          exact ⟨l, rng2,
            by simp only [cull_pos_go, if_pos h1, if_neg h2]; exact hgo,
            hsub.cons _, hsome⟩
      · obtain ⟨l, rng2, hgo, hsub, hsome⟩ := ih rng hrest
        exact ⟨l, rng2, by simp only [cull_pos_go, if_neg h1]; exact hgo,
          hsub.cons _, hsome⟩
    | word o s =>
      obtain ⟨l, rng2, hgo, hsub, hsome⟩ := ih rng hrest
      by_cases h1 : (dtok.kind == DSkind.word) = true
      · by_cases h2 : o.includesvalue dtok.text = true
        · exact ⟨.word o s :: l, rng2,
            by simp only [cull_pos_go, if_pos h1, if_pos h2, hgo]; rfl,
            hsub.cons₂ _, hsome⟩
        · exact ⟨l, rng2,
            by simp only [cull_pos_go, if_pos h1, if_neg h2]; exact hgo,
            hsub.cons _, hsome⟩
      · exact ⟨l, rng2, by simp only [cull_pos_go, if_neg h1]; exact hgo,
          hsub.cons _, hsome⟩
    | tz t s =>
      obtain ⟨l, rng2, hgo, hsub, hsome⟩ := ih rng hrest
      by_cases h1 : (dtok.kind == DSkind.tz) = true
      · exact ⟨.tz t s :: l, rng2,
          by simp only [cull_pos_go, if_pos h1, hgo]; rfl,
          hsub.cons₂ _, hsome⟩
      · exact ⟨l, rng2, by simp only [cull_pos_go, if_neg h1]; exact hgo,
          hsub.cons _, hsome⟩

theorem cull_pos_ok (p : DSpos) (t : DTok)
    (h : has_num_cand p.cands = true → p.numrange.isSome = true) :
    ∃ p2, cull_pos p t = some p2 ∧
      (has_num_cand p2.cands = true → p2.numrange.isSome = true) := by
  obtain ⟨l, rng2, hgo, hsub, hsome⟩ := cull_pos_go_ok t p.cands p.numrange h
  refine ⟨⟨l, rng2⟩, ?_, fun hn => hsome (h (has_num_sublist hsub hn))⟩
  rw [cull_pos, hgo]
  rfl

theorem cull_go_ok :
    ∀ (ps : List DSpos) (toks : List DTok),
      (∀ p ∈ ps, has_num_cand p.cands = true → p.numrange.isSome = true) →
      ∃ ps2, cull_go ps toks = some ps2 ∧
        ∀ p ∈ ps2, has_num_cand p.cands = true → p.numrange.isSome = true := by
  intro ps
  induction ps with
  | nil =>
    intro toks _
    cases toks with
    | nil => exact ⟨[], rfl, by simp⟩
    | cons t ts => exact ⟨[], rfl, by simp⟩
  | cons p ps ih =>
    intro toks h
    cases toks with
    | nil => exact ⟨p :: ps, rfl, h⟩
    | cons t ts =>
      obtain ⟨p2, hcp, hp2⟩ := cull_pos_ok p t (h p (List.mem_cons_self p ps))
      obtain ⟨ps2, hgo, hps2⟩ := ih ts (fun q hq => h q (List.mem_cons_of_mem p hq))
      refine ⟨p2 :: ps2, ?_, ?_⟩
      · simp only [cull_go, hcp, hgo]
        rfl
      · intro q hq
        rcases List.mem_cons.mp hq with rfl | hq
        · exact hp2
        · exact hps2 q hq

theorem cull_with_date_tokens_ok (opts : DSoptions) (toks : List DTok)
    (h : NumInv opts) :
    ∃ o2, cull_with_date_tokens opts toks = some o2 ∧ NumInv o2 := by
  obtain ⟨ps2, hgo, hps2⟩ := cull_go_ok opts.positions toks h
  refine ⟨{ opts with positions := ps2 }, ?_, hps2⟩
  rw [cull_with_date_tokens, hgo]
  rfl

theorem cull_with_dates_ok :
    ∀ (dates : List String) (opts : DSoptions), NumInv opts →
      ∃ o2, cull_with_dates opts dates = some o2 ∧ NumInv o2 := by
  intro dates
  induction dates with
  | nil => intro opts h; exact ⟨opts, rfl, h⟩
  | cons d ds ih =>
    intro opts h
    obtain ⟨omid, hmid, hmidinv⟩ := cull_with_date_tokens_ok opts (tokenize_date d) h
    obtain ⟨o2, h2, h2inv⟩ := ih omid hmidinv
    exact ⟨o2, by simp only [cull_with_dates, hmid]; exact h2, h2inv⟩

theorem cull_decorators_numinv (opts : DSoptions) (h : NumInv opts) :
    NumInv (cull_decorators opts) := by
  intro p hp hnum
  simp only [cull_decorators, List.mem_map] at hp
  obtain ⟨q, hq, rfl⟩ := hp
  have hnum2 : has_num_cand q.cands = true := by
    rw [cull_decorators_pos] at hnum
    split at hnum
    · exact has_num_sublist (List.filter_sublist q.cands) hnum
    · exact hnum
  have hres := h q hq hnum2
  rw [cull_decorators_pos]
  split
  · exact hres
  · exact hres

theorem omap_cands_ok (f : DScand → Option DScand) :
    ∀ l : List DScand, (∀ c ∈ l, (f c).isSome = true) →
      ∃ l2, omap_cands f l = some l2 := by
  intro l
  induction l with
  | nil => intro _; exact ⟨[], rfl⟩
  | cons c rest ih =>
    intro h
    obtain ⟨l2, hl2⟩ := ih (fun c2 h2 => h c2 (List.mem_cons_of_mem c h2))
    have := h c (List.mem_cons_self c rest)
    cases hf : f c with
    | none => rw [hf] at this; cases this
    | some c2 =>
      exact ⟨c2 :: l2, by simp only [omap_cands, hf, hl2]; rfl⟩

theorem omap_pos_ok (f : DSpos → Option DSpos) :
    ∀ l : List DSpos, (∀ p ∈ l, (f p).isSome = true) →
      ∃ l2, omap_pos f l = some l2 := by
  intro l
  induction l with
  | nil => intro _; exact ⟨[], rfl⟩
  | cons p rest ih =>
    intro h
    obtain ⟨l2, hl2⟩ := ih (fun p2 h2 => h p2 (List.mem_cons_of_mem p h2))
    have := h p (List.mem_cons_self p rest)
    cases hf : f p with
    | none => rw [hf] at this; cases this
    | some p2 =>
      exact ⟨p2 :: l2, by simp only [omap_pos, hf, hl2]; rfl⟩

theorem likelyrange_cand_some (directives : PySpec) (lr : Int × Int)
    (pos neg : Int) (p : DSpos)
    (h : has_num_cand p.cands = true → p.numrange.isSome = true) :
    ∀ c ∈ p.cands, (likelyrange_cand directives lr pos neg p.numrange c).isSome = true := by
  intro c hc
  cases c with
  | dec t s => rfl
  | word o s => rfl
  | tz t s => rfl
  | num o s =>
    simp only [likelyrange_cand]
    split
    · have hsome : p.numrange.isSome = true := by
        apply h
        rw [has_num_cand, List.any_eq_true]
        exact ⟨.num o s, hc, rfl⟩
      cases hr : p.numrange with
      | none => rw [hr] at hsome; cases hsome
      | some lohi => obtain ⟨lo, hi⟩ := lohi; rfl
    · rfl

/-- Under the numeric-range invariant, the likely-range rule's unguarded
range accesses cannot raise. -/
theorem likelyrange_apply_some (directives : PySpec) (lr : Int × Int)
    (pos neg : Int) (opts : DSoptions) (h : NumInv opts) :
    (DSLikelyRangeRule_apply directives lr pos neg opts).isSome = true := by
  rw [DSLikelyRangeRule_apply]
  obtain ⟨l2, hl2⟩ := omap_pos_ok
    (fun p => (omap_cands (likelyrange_cand directives lr pos neg p.numrange)
      p.cands).map (fun l => { p with cands := l }))
    opts.positions
    (fun p hp => by
      obtain ⟨lc, hlc⟩ := omap_cands_ok _ p.cands
        (likelyrange_cand_some directives lr pos neg p (h p hp))
      simp only [hlc, Option.map_some', Option.isSome_some])
  rw [hl2]
  rfl

/-- C10: every position holding a Numeric candidate has a non-None
numrange: the invariant is established by model construction, preserved
by culling (which removes candidates but never clears a range) and by
decorator culling, and under it DSLikelyRangeRule.apply's unguarded
numranges accesses never hit a None range. -/
theorem claim_C10 :
    (∀ (opts : DSoptions) (toks : List DTok), NumInv opts →
      NumInv (init_with_date_tokens opts toks)) ∧
    (∀ (opts o2 : DSoptions) (toks : List DTok), NumInv opts →
      cull_with_date_tokens opts toks = some o2 → NumInv o2) ∧
    (∀ opts : DSoptions, NumInv opts → NumInv (cull_decorators opts)) ∧
    (∀ (opts : DSoptions) (directives : PySpec) (lr : Int × Int) (pos neg : Int),
      NumInv opts →
      (DSLikelyRangeRule_apply directives lr pos neg opts).isSome = true) := by
  refine ⟨numinv_init, ?_, cull_decorators_numinv,
    fun opts d lr pos neg h => likelyrange_apply_some d lr pos neg opts h⟩
  intro opts o2 toks h heq
  obtain ⟨o3, heq2, hinv⟩ := cull_with_date_tokens_ok opts toks h
  rw [heq] at heq2
  cases heq2
  exact hinv

/-- Witness for claim_C10: the likely-range rule applied to a one-position
model holding a numeric candidate with an established range. -/
theorem claim_C10_witness :
    (DSLikelyRangeRule_apply (.str "%M") (0, 10) 1 (-1)
      ⟨[⟨[DScand.num dir_M 2], some (4, 4)⟩], [], [], "%z", []⟩).isSome = true :=
  claim_C10.2.2.2 ⟨[⟨[DScand.num dir_M 2], some (4, 4)⟩], [], [], "%z", []⟩
    (.str "%M") (0, 10) 1 (-1)
    (by intro p hp hn; rw [List.mem_singleton] at hp; subst hp; rfl)

theorem cand_sig_add_score (c : DScand) (d : Int) :
    cand_sig (c.add_score d) = cand_sig c := by
  cases c <;> rfl

theorem map_map_sig {α β : Type} (h : α → β) (g : α → α)
    (hg : ∀ a, h (g a) = h a) :
    ∀ l : List α, (l.map g).map h = l.map h := by
  intro l
  induction l with
  | nil => rfl
  | cons c rest ih => simp only [List.map_cons, hg, ih]

theorem map_mapi_from {α β : Type} (h : α → β) (f : Nat → α → α)
    (hf : ∀ i a, h (f i a) = h a) :
    ∀ (n : Nat) (l : List α), (mapi_from f n l).map h = l.map h := by
  intro n l
  induction l generalizing n with
  | nil => rfl
  | cons a rest ih => simp only [mapi_from, List.map_cons, hf, ih]

theorem foldl_sig {β : Type} (step : DScand → β → DScand)
    (hstep : ∀ c b, cand_sig (step c b) = cand_sig c) :
    ∀ (l : List β) (c : DScand), cand_sig (l.foldl step c) = cand_sig c := by
  intro l
  induction l with
  | nil => intro c; rfl
  | cons b rest ih => intro c; rw [List.foldl_cons, ih, hstep]

theorem delim_score_sig (directives : PySpec) (d : Int) (c : DScand) :
    cand_sig (delim_score directives d c) = cand_sig c := by
  rw [delim_score]
  split
  · exact cand_sig_add_score c d
  · rfl

theorem delim_apply_shape (directives : PySpec) (delimiters : List String)
    (posscore negscore : Int) (opts : DSoptions) :
    opts_shape (DSDelimiterRule_apply directives delimiters posscore negscore opts) =
      opts_shape opts := by
  simp only [DSDelimiterRule_apply, opts_shape, mapi]
  apply map_mapi_from
  intro i p
  split <;> simp only [pos_shape] <;>
    rw [map_map_sig cand_sig _ (delim_score_sig directives _)]

theorem likelyrange_cand_sig (directives : PySpec) (lr : Int × Int)
    (pos neg : Int) (rng : Option (Int × Int)) (c c2 : DScand)
    (h : likelyrange_cand directives lr pos neg rng c = some c2) :
    cand_sig c2 = cand_sig c := by
  cases c with
  | dec t s => cases h; rfl
  | word o s => cases h; rfl
  | tz t s => cases h; rfl
  | num o s =>
    simp only [likelyrange_cand] at h
    split at h
    · cases hr : rng with
      | none => rw [hr] at h; cases h
      | some lohi =>
        obtain ⟨lo, hi⟩ := lohi
        rw [hr] at h
        simp only [Option.some.injEq] at h
        rw [← h]
        rfl
    · cases h; rfl

theorem omap_cands_sig (f : DScand → Option DScand)
    (hf : ∀ c c2, f c = some c2 → cand_sig c2 = cand_sig c) :
    ∀ l l2 : List DScand, omap_cands f l = some l2 →
      l2.map cand_sig = l.map cand_sig := by
  intro l
  induction l with
  | nil => intro l2 h; cases h; rfl
  | cons c rest ih =>
    intro l2 h
    simp only [omap_cands] at h
    cases hf2 : f c with
    | none => rw [hf2] at h; cases h
    | some c2 =>
      rw [hf2, Option.map_eq_some'] at h
      obtain ⟨l3, h3, heq⟩ := h
      rw [← heq]
      simp only [List.map_cons, hf c c2 hf2, ih l3 h3]

theorem omap_pos_shape_lr (directives : PySpec) (lr : Int × Int) (pos neg : Int) :
    ∀ (ps l2 : List DSpos),
      omap_pos (fun p =>
        (omap_cands (likelyrange_cand directives lr pos neg p.numrange)
          p.cands).map (fun l => { p with cands := l })) ps = some l2 →
      l2.map pos_shape = ps.map pos_shape := by
  intro ps
  induction ps with
  | nil => intro l2 h; cases h; rfl
  | cons p rest ih =>
    intro l2 h
    simp only [omap_pos] at h
    cases hf : (omap_cands (likelyrange_cand directives lr pos neg p.numrange)
        p.cands).map (fun l => { p with cands := l }) with
    | none => rw [hf] at h; cases h
    | some p2 =>
      rw [hf, Option.map_eq_some'] at h
      obtain ⟨l3, h3, heq2⟩ := h
      rw [Option.map_eq_some'] at hf
      obtain ⟨lc, hlc, heqp⟩ := hf
      rw [← heq2]
      simp only [List.map_cons, ih l3 h3, ← heqp, pos_shape]
      rw [omap_cands_sig _ (likelyrange_cand_sig directives lr pos neg p.numrange)
        p.cands lc hlc]

theorem likelyrange_apply_shape (directives : PySpec) (lr : Int × Int)
    (pos neg : Int) (opts o2 : DSoptions)
    (h : DSLikelyRangeRule_apply directives lr pos neg opts = some o2) :
    opts_shape o2 = opts_shape opts := by
  rw [DSLikelyRangeRule_apply, Option.map_eq_some'] at h
  obtain ⟨l2, h2, heq⟩ := h
  rw [← heq]
  exact omap_pos_shape_lr directives lr pos neg opts.positions l2 h2

theorem mod_cand_shape (ps : List DSpos) (ij : Nat × Nat) (d : Int) :
    (mod_cand ps ij d).map pos_shape = ps.map pos_shape := by
  rw [mod_cand, mapi]
  apply map_mapi_from
  intro i p
  split
  · simp only [pos_shape, mapi]
    rw [map_mapi_from cand_sig _ (fun j c => by split <;>
      simp [cand_sig_add_score])]
  · rfl

theorem pattern_pos_phase_shape (posscore : Int) :
    ∀ (ordered : List (Nat × Nat)) (ps : List DSpos),
      (pattern_pos_phase posscore ordered ps).map pos_shape = ps.map pos_shape := by
  intro ordered
  induction ordered with
  | nil => intro ps; rfl
  | cons ij rest ih =>
    intro ps
    simp only [pattern_pos_phase] at ih ⊢
    rw [List.foldl_cons, ih, mod_cand_shape]

theorem pattern_neg_phase_shape (sequence : List PySpec) (negscore : Int)
    (ordered : List (Nat × Nat)) (ps : List DSpos) :
    (pattern_neg_phase sequence negscore ordered ps).map pos_shape =
      ps.map pos_shape := by
  rw [pattern_neg_phase, mapi]
  apply map_mapi_from
  intro i p
  simp only [pos_shape, mapi]
  rw [map_mapi_from cand_sig _ (fun j c => by
    split
    · rfl
    · exact foldl_sig _ (fun c2 b => by split <;> simp [cand_sig_add_score]) sequence c)]

theorem pattern_apply_shape (s0 : PySpec) (srest : List PySpec) (md : Nat)
    (mm pos neg : Int) (opts o2 : DSoptions)
    (h : DSPatternRule_apply (s0 :: srest) md mm pos neg opts = some o2) :
    opts_shape o2 = opts_shape opts := by
  simp only [DSPatternRule_apply, Option.some.injEq] at h
  rw [← h]
  show (pattern_neg_phase _ _ _ (pattern_pos_phase _ _ _)).map pos_shape = _
  rw [pattern_neg_phase_shape, pattern_pos_phase_shape]
  rfl

theorem mutex_apply_shape (directives : List PySpec) (pos neg : Int)
    (opts : DSoptions) :
    opts_shape (DSMutExclusionRule_apply directives pos neg opts) =
      opts_shape opts := by
  rw [DSMutExclusionRule_apply]
  cases mutex_highest (opts.positions.foldl (fun m p =>
      p.cands.foldl (fun m tok => mutex_update_tok directives tok m) m)
    (directives.map (fun _ => none))) with
  | none => rfl
  | some hi =>
    simp only [opts_shape]
    apply map_map_sig pos_shape
    intro p
    simp only [pos_shape]
    rw [map_map_sig cand_sig _ (fun tok =>
      foldl_sig _ (fun c2 b => by split <;> simp [cand_sig_add_score]) _ tok)]

/-- A rule whose configuration is total succeeds on an invariant-satisfying
model and changes only scores. -/
theorem rule_apply_ok (r : DSrule) (opts : DSoptions) (h : NumInv opts)
    (ht : rule_total r = true) :
    ∃ o2, DSrule.apply opts r = some o2 ∧ opts_shape o2 = opts_shape opts := by
  cases r with
  | delimiter d dl p n =>
    exact ⟨_, rfl, delim_apply_shape d dl p n opts⟩
  | likelyrange d lr p n =>
    have hsome := likelyrange_apply_some d lr p n opts h
    cases happ : DSLikelyRangeRule_apply d lr p n opts with
    | none => rw [happ] at hsome; cases hsome
    | some o2 => exact ⟨o2, happ, likelyrange_apply_shape d lr p n opts o2 happ⟩
  | pattern seq md mm p n =>
    cases seq with
    | nil => simp [rule_total] at ht
    | cons s0 srest =>
      refine ⟨_, rfl, pattern_apply_shape s0 srest md mm p n opts _ rfl⟩
  | mutexclusion d p n =>
    exact ⟨_, rfl, mutex_apply_shape d p n opts⟩

theorem has_num_eq_shape (l : List DScand) :
    has_num_cand l = (l.map cand_sig).any (fun s => s.1 == DSkind.num) := by
  induction l with
  | nil => rfl
  | cons c rest ih =>
    rw [has_num_cand, List.any_cons, List.map_cons, List.any_cons,
      ← has_num_cand, ih]
    rfl

/-- NumInv depends only on the score-free shape. -/
theorem numinv_shape {o1 o2 : DSoptions} (hs : opts_shape o2 = opts_shape o1)
    (h : NumInv o1) : NumInv o2 := by
  intro p hp hnum
  have hmem : pos_shape p ∈ opts_shape o1 := by
    rw [← hs]
    exact List.mem_map_of_mem pos_shape hp
  rw [opts_shape, List.mem_map] at hmem
  obtain ⟨q, hq, hpq⟩ := hmem
  have hcands : q.cands.map cand_sig = p.cands.map cand_sig :=
    congrArg Prod.fst hpq
  have hrng : q.numrange = p.numrange := congrArg Prod.snd hpq
  have hnumq : has_num_cand q.cands = true := by
    rw [has_num_eq_shape, hcands, ← has_num_eq_shape]
    exact hnum
  have := h q hq hnumq
  rw [hrng] at this
  exact this

theorem apply_rules_ok :
    ∀ (rules : List DSrule) (opts : DSoptions), NumInv opts →
      (∀ r ∈ rules, rule_total r = true) →
      ∃ o2, apply_rules opts rules = some o2 := by
  intro rules
  induction rules with
  | nil => intro opts _ _; exact ⟨opts, rfl⟩
  | cons r rs ih =>
    intro opts h ht
    obtain ⟨o2, happ, hshape⟩ := rule_apply_ok r opts h (ht r (List.mem_cons_self r rs))
    obtain ⟨o3, h3⟩ := ih o2 (numinv_shape hshape h)
      (fun r2 h2 => ht r2 (List.mem_cons_of_mem r h2))
    exact ⟨o3, by simp only [apply_rules, happ]; exact h3⟩

theorem cull_with_date_tokens_rules (opts : DSoptions) (toks : List DTok)
    (o2 : DSoptions) (h : cull_with_date_tokens opts toks = some o2) :
    o2.formatrules = opts.formatrules := by
  rw [cull_with_date_tokens, Option.map_eq_some'] at h
  obtain ⟨l, _, heq⟩ := h
  rw [← heq]

theorem cull_with_dates_rules :
    ∀ (dates : List String) (opts o2 : DSoptions),
      cull_with_dates opts dates = some o2 →
      o2.formatrules = opts.formatrules := by
  intro dates
  induction dates with
  | nil =>
    intro opts o2 h
    simp only [cull_with_dates, Option.some.injEq] at h
    rw [← h]
  | cons d ds ih =>
    intro opts o2 h
    simp only [cull_with_dates] at h
    cases hct : cull_with_date_tokens opts (tokenize_date d) with
    | none => rw [hct] at h; cases h
    | some omid =>
      rw [hct] at h
      rw [ih omid o2 h, cull_with_date_tokens_rules opts _ omid hct]

/-- C2 (amended): detect_format with default configuration is total on
every non-empty sequence of sample strings (the empty sequence raises
IndexError at dates[0]). -/
theorem claim_C2_amended :
    ∀ dates : List String, dates ≠ [] →
      ∃ o : DSoptions, detect_format_default dates = some o := by
  intro dates hne
  match dates, hne with
  | d0 :: ds, _ =>
    rw [detect_format_default, detect_format]
    have hinv0 : NumInv ⟨[], get_default_numoptions, get_default_wordoptions,
        dir_z, get_default_rules⟩ := by
      intro p hp
      exact absurd hp (List.not_mem_nil p)
    have hinit := numinv_init _ (tokenize_date d0) hinv0
    obtain ⟨oc, hculls, hcullinv⟩ := cull_with_dates_ok (d0 :: ds) _ hinit
    have hrules : oc.formatrules = get_default_rules :=
      cull_with_dates_rules (d0 :: ds) _ oc hculls
    have hdecinv := cull_decorators_numinv oc hcullinv
    have hdecrules : (cull_decorators oc).formatrules = get_default_rules := hrules
    have htotal : ∀ r ∈ (cull_decorators oc).formatrules, rule_total r = true := by
      rw [hdecrules]
      decide
    obtain ⟨ofin, happly⟩ := apply_rules_ok (cull_decorators oc).formatrules
      (cull_decorators oc) hdecinv htotal
    refine ⟨if (-2 : Int) ≠ 0 then penalize_duplicates (-2) ofin else ofin, ?_⟩
    rw [initialize_with_dates]
    simp only [hculls, Option.map_some', Option.some_bind, process, happly]

/-- Witness for claim_C2_amended at a one-element sample list. -/
theorem claim_C2_witness :
    ∃ o : DSoptions, detect_format_default ["x"] = some o :=
  claim_C2_amended ["x"] (by decide)

/-- The accumulator loop of get_max_score either keeps the running best
(and nothing in the remainder beats it) or returns the first strict
improvement in the remainder. -/
theorem get_max_score_aux_spec :
    ∀ (l : List DScand) (best : DScand),
      (get_max_score_aux best l = best ∧
        ∀ m (hm : m < l.length), (l.get ⟨m, hm⟩).score ≤ best.score) ∨
      (∃ k, ∃ hk : k < l.length, get_max_score_aux best l = l.get ⟨k, hk⟩ ∧
        best.score < (get_max_score_aux best l).score ∧
        (∀ m (hm : m < l.length),
          (l.get ⟨m, hm⟩).score ≤ (get_max_score_aux best l).score) ∧
        (∀ m (hm : m < l.length), m < k →
          (l.get ⟨m, hm⟩).score < (get_max_score_aux best l).score)) := by
  intro l
  induction l with
  | nil =>
    intro best
    left
    exact ⟨rfl, fun m hm => absurd hm (Nat.not_lt_zero m)⟩
  | cons x rest ih =>
    intro best
    by_cases hx : x.score > best.score
    · have hrw : get_max_score_aux best (x :: rest) = get_max_score_aux x rest := by
        rw [get_max_score_aux, if_pos hx]
      rcases ih x with ⟨heq, hle⟩ | ⟨k, hk, heq, hlt, hle, hstrict⟩
      · right
        refine ⟨0, Nat.succ_pos rest.length, ?_, ?_, ?_, ?_⟩
        · rw [hrw, heq]; rfl
        · rw [hrw, heq]; exact hx
        · intro m hm
          cases m with
          | zero => rw [hrw, heq]; exact le_refl _
          | succ m2 =>
            rw [hrw, heq]
            simpa using hle m2 (Nat.lt_of_succ_lt_succ hm)
        · intro m hm hm0
          exact absurd hm0 (Nat.not_lt_zero m)
      · right
        refine ⟨k + 1, Nat.succ_lt_succ hk, ?_, ?_, ?_, ?_⟩
        · rw [hrw, heq]; rfl
        · rw [hrw]; exact lt_trans hx hlt
        · intro m hm
          cases m with
          | zero => rw [hrw]; simpa using le_of_lt hlt
          | succ m2 =>
            rw [hrw]
            simpa using hle m2 (Nat.lt_of_succ_lt_succ hm)
        · intro m hm hmk
          cases m with
          | zero => rw [hrw]; simpa using hlt
          | succ m2 =>
            rw [hrw]
            simpa using hstrict m2 (Nat.lt_of_succ_lt_succ hm)
              (Nat.lt_of_succ_lt_succ hmk)
    · have hrw : get_max_score_aux best (x :: rest) = get_max_score_aux best rest := by
        rw [get_max_score_aux, if_neg hx]
      have hxle : x.score ≤ best.score := le_of_not_lt hx
      rcases ih best with ⟨heq, hle⟩ | ⟨k, hk, heq, hlt, hle, hstrict⟩
      · left
        refine ⟨by rw [hrw, heq], ?_⟩
        intro m hm
        cases m with
        | zero => simpa using hxle
        | succ m2 => simpa using hle m2 (Nat.lt_of_succ_lt_succ hm)
      · right
        refine ⟨k + 1, Nat.succ_lt_succ hk, ?_, ?_, ?_, ?_⟩
        · rw [hrw, heq]; rfl
        · rw [hrw]; exact hlt
        · intro m hm
          cases m with
          | zero =>
            rw [hrw]
            simpa using le_trans hxle (le_of_lt hlt)
          | succ m2 =>
            rw [hrw]
            simpa using hle m2 (Nat.lt_of_succ_lt_succ hm)
        · intro m hm hmk
          cases m with
          | zero =>
            rw [hrw]
            simpa using lt_of_le_of_lt hxle hlt
          | succ m2 =>
            rw [hrw]
            simpa using hstrict m2 (Nat.lt_of_succ_lt_succ hm)
              (Nat.lt_of_succ_lt_succ hmk)

/-- get_max_score selects the maximum-score candidate, first occurrence
winning ties. -/
theorem get_max_score_first_max (cands : List DScand) (c : DScand)
    (h : get_max_score cands = some c) : first_max_at cands c := by
  cases cands with
  | nil => cases h
  | cons t ts =>
    rw [get_max_score, Option.some.injEq] at h
    rcases get_max_score_aux_spec ts t with ⟨heq, hle⟩ | ⟨k, hk, heq, hlt, hle, hstrict⟩
    · refine ⟨0, Nat.succ_pos ts.length, ?_, ?_, ?_⟩
      · rw [← h, heq]; rfl
      · intro m hm
        cases m with
        | zero => rw [← h, heq]; simp
        | succ m2 =>
          rw [← h, heq]
          simpa using hle m2 (Nat.lt_of_succ_lt_succ hm)
      · intro m hm hm0
        exact absurd hm0 (Nat.not_lt_zero m)
    · refine ⟨k + 1, Nat.succ_lt_succ hk, ?_, ?_, ?_⟩
      · rw [← h, heq]; rfl
      · intro m hm
        cases m with
        | zero => rw [← h]; simpa using le_of_lt hlt
        | succ m2 =>
          rw [← h]
          simpa using hle m2 (Nat.lt_of_succ_lt_succ hm)
      · intro m hm hmk
        cases m with
        | zero => rw [← h]; simpa using hlt
        | succ m2 =>
          rw [← h]
          simpa using hstrict m2 (Nat.lt_of_succ_lt_succ hm)
            (Nat.lt_of_succ_lt_succ hmk)

theorem get_max_score_isSome (cands : List DScand) :
    (get_max_score cands).isSome = true ↔ cands ≠ [] := by
  cases cands <;> simp [get_max_score]

/-- get_format_tokens selects one token per position exactly when no
position's candidate list is empty. -/
theorem get_format_tokens_length (ps : List DSpos) :
    (ps.filterMap (fun p => get_max_score p.cands)).length = ps.length ↔
      ∀ p ∈ ps, p.cands ≠ [] := by
  induction ps with
  | nil => simp
  | cons p rest ih =>
    cases hm : get_max_score p.cands with
    | none =>
      simp only [List.filterMap_cons, hm]
      have hemp : p.cands = [] := by
        by_contra hne
        have := (get_max_score_isSome p.cands).mpr hne
        rw [hm] at this
        cases this
      constructor
      · intro hlen
        exfalso
        have hle := List.length_filterMap_le (fun p => get_max_score p.cands) rest
        rw [List.length_cons] at hlen
        omega
      · intro hall
        exact absurd hemp (hall p (List.mem_cons_self p rest))
    | some t =>
      simp only [List.filterMap_cons, hm]
      rw [List.length_cons, List.length_cons]
      constructor
      · intro hlen
        intro q hq
        rcases List.mem_cons.mp hq with rfl | hq2
        · intro hemp
          rw [hemp] at hm
          cases hm
        · exact ih.mp (Nat.succ_injective hlen) q hq2
      · intro hall
        rw [ih.mpr (fun q hq => hall q (List.mem_cons_of_mem p hq))]

/-- C5: get_format_string with blank_if_unrecognized=True returns the
empty string unless some selected candidate is a directive and every
position produced a selected candidate; otherwise (and always with
blank_if_unrecognized=False) it returns the concatenation of the selected
candidates' texts (escaped in literals when replace_percent is set, the
raw texts when it is not); the selected candidate of each position is the
one of maximum score, first occurrence winning ties. -/
theorem claim_C5 :
    (∀ (opts : DSoptions) (rp : Bool),
      get_format_string opts rp false =
        (get_format_tokens opts).foldl
          (fun s tok => s ++ format_token_text rp tok) "") ∧
    (∀ (opts : DSoptions) (rp : Bool),
      get_format_string opts rp true =
        if ((get_format_tokens opts).any (fun t => !(t.is_decorator))) = true
            ∧ ∀ p ∈ opts.positions, p.cands ≠ [] then
          (get_format_tokens opts).foldl
            (fun s tok => s ++ format_token_text rp tok) ""
        else "") ∧
    (∀ tok : DScand, format_token_text false tok = tok.text) ∧
    (∀ opts : DSoptions, get_format_tokens opts =
      opts.positions.filterMap (fun p => get_max_score p.cands)) ∧
    (∀ (cands : List DScand) (c : DScand), get_max_score cands = some c →
      first_max_at cands c) := by
  refine ⟨?_, ?_, fun tok => rfl, fun opts => rfl, get_max_score_first_max⟩
  · intro opts rp
    rw [get_format_string]
    rfl
  · intro opts rp
    rw [get_format_string]
    by_cases hcond : ((get_format_tokens opts).any (fun t => !(t.is_decorator))) = true
        ∧ ∀ p ∈ opts.positions, p.cands ≠ []
    · rw [if_pos hcond]
      have hlen : ((get_format_tokens opts).length == opts.positions.length) = true := by
        rw [beq_iff_eq]
        exact (get_format_tokens_length opts.positions).mpr hcond.2
      simp only [hcond.1, hlen, Bool.not_true, Bool.false_or, Bool.and_self, if_true]
    · rw [if_neg hcond]
      rw [Classical.not_and_iff_or_not_not] at hcond
      rcases hcond with hcond | hcond
      · have : ((get_format_tokens opts).any (fun t => !(t.is_decorator))) = false :=
          Bool.not_eq_true _ ▸ (Bool.eq_false_iff.mpr hcond)
        simp only [this, Bool.not_true, Bool.false_or, Bool.false_and, if_false]
        rfl
      · have : ((get_format_tokens opts).length == opts.positions.length) = false := by
          rw [beq_eq_false_iff_ne]
          intro heq
          exact hcond ((get_format_tokens_length opts.positions).mp heq)
        simp only [this, Bool.not_true, Bool.false_or, Bool.and_false, if_false]
        rfl

/-- Witness for claim_C5: the first of the two tied maximal candidates is
selected. -/
theorem claim_C5_witness :
    first_max_at [DScand.dec "a" 1, DScand.dec "b" 2, DScand.dec "c" 2]
      (DScand.dec "b" 2) :=
  claim_C5.2.2.2.2 [DScand.dec "a" 1, DScand.dec "b" 2, DScand.dec "c" 2]
    (DScand.dec "b" 2) rfl

theorem add_score_zero (c : DScand) : c.add_score 0 = c := by
  cases c <;> simp [DScand.add_score]

theorem add_score_add (c : DScand) (a b : Int) :
    (c.add_score a).add_score b = c.add_score (a + b) := by
  cases c <;> simp [DScand.add_score, add_assoc]

theorem add_score_text (c : DScand) (d : Int) : (c.add_score d).text = c.text := by
  cases c <;> rfl

theorem add_score_is_dec (c : DScand) (d : Int) :
    (c.add_score d).is_decorator = c.is_decorator := by
  cases c <;> rfl

theorem get?_mapi_from {α β : Type} (f : Nat → α → β) :
    ∀ (l : List α) (n i : Nat),
      (mapi_from f n l).get? i = (l.get? i).map (f (n + i)) := by
  intro l
  induction l with
  | nil => intro n i; cases i <;> rfl
  | cons a rest ih =>
    intro n i
    cases i with
    | zero => rfl
    | succ i2 =>
      show (mapi_from f (n + 1) rest).get? i2 = (rest.get? i2).map (f (n + (i2 + 1)))
      rw [ih (n + 1) i2]
      have harith : n + 1 + i2 = n + (i2 + 1) := by omega
      rw [harith]

theorem get?_mapi {α β : Type} (f : Nat → α → β) (l : List α) (i : Nat) :
    (mapi f l).get? i = (l.get? i).map (f i) := by
  rw [mapi, get?_mapi_from, Nat.zero_add]

/-- cand_at through a per-position, per-slot rewrite of all candidates. -/
theorem cand_at_mapi_mapi (g : Nat → Nat → DScand → DScand) (ps : List DSpos)
    (i j : Nat) :
    cand_at (mapi (fun i2 p =>
        { p with cands := mapi (fun j2 c => g i2 j2 c) p.cands }) ps) (i, j) =
      (cand_at ps (i, j)).map (g i j) := by
  rw [cand_at, cand_at, get?_mapi]
  cases ps.get? i with
  | none => rfl
  | some p =>
    simp only [Option.map_some', Option.some_bind]
    rw [get?_mapi]

/-- BEq on index pairs is componentwise. -/
theorem prod_beq_def (a b c d : Nat) :
    (((a, b) : Nat × Nat) == (c, d)) = (a == c && b == d) := rfl

theorem cand_at_mod_cand (ps : List DSpos) (i0 j0 i j : Nat) (d : Int) :
    cand_at (mod_cand ps (i0, j0) d) (i, j) =
      (cand_at ps (i, j)).map
        (fun c => if i == i0 && (j == j0) then c.add_score d else c) := by
  rw [mod_cand, cand_at, cand_at, get?_mapi]
  cases ps.get? i with
  | none => rfl
  | some p =>
    simp only [Option.map_some', Option.some_bind]
    by_cases hi : (i == i0) = true
    · rw [if_pos hi]
      show (mapi (fun j2 c => if (j2 == j0) = true then c.add_score d else c)
        p.cands).get? j = _
      rw [get?_mapi]
      cases p.cands.get? j with
      | none => rfl
      | some c => simp only [Option.map_some', Option.some.injEq, hi, Bool.true_and]
    · rw [if_neg hi]
      have hif : (i == i0) = false := Bool.eq_false_iff.mpr hi
      cases p.cands.get? j with
      | none => rfl
      | some c =>
        simp only [Option.map_some', Option.some.injEq, hif, Bool.false_and, if_false]
        rfl

/-- Closed form of the positive phase: each candidate's score grows by
posscore for every occurrence of its index in ordered_toks. -/
theorem cand_at_pos_phase (posscore : Int) :
    ∀ (ordered : List (Nat × Nat)) (ps : List DSpos) (i j : Nat),
      cand_at (pattern_pos_phase posscore ordered ps) (i, j) =
        (cand_at ps (i, j)).map
          (fun c => c.add_score (posscore * (ordered.count (i, j)))) := by
  intro ordered
  induction ordered with
  | nil =>
    intro ps i j
    simp only [pattern_pos_phase, List.foldl_nil, List.count_nil]
    cases cand_at ps (i, j) with
    | none => rfl
    | some c => simp [add_score_zero]
  | cons ij0 rest ih =>
    intro ps i j
    simp only [pattern_pos_phase, List.foldl_cons] at ih ⊢
    rw [ih (mod_cand ps ij0 posscore) i j]
    obtain ⟨i0, j0⟩ := ij0
    rw [cand_at_mod_cand]
    cases cand_at ps (i, j) with
    | none => rfl
    | some c =>
      simp only [Option.map_some', Option.some.injEq, List.count_cons]
      by_cases hb : (i == i0 && (j == j0)) = true
      · rw [if_pos hb]
        rw [Bool.and_eq_true, beq_iff_eq, beq_iff_eq] at hb
        obtain ⟨hi, hj⟩ := hb
        subst hi
        subst hj
        rw [if_pos (by rw [beq_self_eq_true]), add_score_add]
        congr 1
        push_cast
        ring
      · have hbp : (((i0, j0) : Nat × Nat) == (i, j)) = false := by
          rw [prod_beq_def]
          apply Bool.eq_false_iff.mpr
          intro hcon
          rw [Bool.and_eq_true, beq_iff_eq, beq_iff_eq] at hcon
          apply hb
          rw [Bool.and_eq_true, beq_iff_eq, beq_iff_eq]
          exact ⟨hcon.1.symm, hcon.2.symm⟩
        rw [if_neg hb, hbp, if_neg (by simp), Nat.add_zero]

/-- Closed form of one candidate's negative-phase fold over the sequence:
no change for a matched candidate, negscore once per sequence element
containing the text otherwise. -/
theorem neg_fold_closed (negscore : Int) (ordered : List (Nat × Nat))
    (ij : Nat × Nat) :
    ∀ (seq : List PySpec) (c : DScand),
      seq.foldl (fun c2 m =>
        if py_in c2.text m && !(ordered.contains ij) then c2.add_score negscore
        else c2) c =
      (if ordered.contains ij then c
       else c.add_score (negscore *
         ((seq.filter (fun e => py_in c.text e)).length))) := by
  intro seq
  induction seq with
  | nil =>
    intro c
    simp only [List.foldl_nil, List.filter_nil, List.length_nil]
    split
    · rfl
    · simp [add_score_zero]
  | cons m rest ih =>
    intro c
    rw [List.foldl_cons]
    by_cases hin : ordered.contains ij = true
    · have hbn : (!(ordered.contains ij)) = false := by rw [hin]; rfl
      rw [if_neg (by rw [hbn, Bool.and_false]; simp)]
      rw [ih c, if_pos hin, if_pos hin]
    · have hinf : ordered.contains ij = false := Bool.eq_false_iff.mpr hin
      have hbn : (!(ordered.contains ij)) = true := by rw [hinf]; rfl
      by_cases hm : py_in c.text m = true
      · rw [if_pos (by rw [hm, hbn]; rfl)]
        rw [ih (c.add_score negscore), if_neg hin, if_neg hin]
        simp only [List.filter_cons, hm, if_pos, add_score_text]
        rw [add_score_add]
        congr 1
        rw [List.length_cons]
        push_cast
        ring
      · have hmf : py_in c.text m = false := Bool.eq_false_iff.mpr hm
        rw [if_neg (by rw [hmf, Bool.false_and]; simp)]
        rw [ih c, if_neg hin, if_neg hin]
        simp only [List.filter_cons, hmf, Bool.false_eq_true, if_false]

/-- Closed form of the negative phase for each candidate slot. -/
theorem cand_at_neg_phase (sequence : List PySpec) (negscore : Int)
    (ordered : List (Nat × Nat)) (ps : List DSpos) (i j : Nat) :
    cand_at (pattern_neg_phase sequence negscore ordered ps) (i, j) =
      (cand_at ps (i, j)).map (fun c =>
        if c.is_decorator then c
        else if ordered.contains (i, j) then c
        else c.add_score (negscore *
          ((sequence.filter (fun e => py_in c.text e)).length))) := by
  rw [pattern_neg_phase, cand_at_mapi_mapi]
  cases cand_at ps (i, j) with
  | none => rfl
  | some c =>
    simp only [Option.map_some', Option.some.injEq]
    split
    · rfl
    · exact neg_fold_closed negscore ordered (i, j) sequence c

/-- C4 (amended): after DSPatternRule.apply with a nonempty sequence,
every candidate receives posscore once per occurrence of its slot in the
matched list ordered_toks (which can exceed one, because the occurrence
accumulator is not cleared when a sequence completes); every non-matched
non-literal candidate additionally receives negscore once per sequence
element containing its text; literal candidates and matched candidates
never receive negscore. -/
theorem claim_C4_amended (s0 : PySpec) (srest : List PySpec) (md : Nat)
    (mm pos neg : Int) (opts o2 : DSoptions) (i j : Nat) (c : DScand)
    (happ : DSPatternRule_apply (s0 :: srest) md mm pos neg opts = some o2)
    (hc : cand_at opts.positions (i, j) = some c) :
    cand_at o2.positions (i, j) =
      some (
        if c.is_decorator then
          c.add_score (pos *
            ((pattern_scan s0 srest md mm opts.positions).count (i, j)))
        else if (pattern_scan s0 srest md mm opts.positions).contains (i, j) then
          c.add_score (pos *
            ((pattern_scan s0 srest md mm opts.positions).count (i, j)))
        else
          (c.add_score (pos *
            ((pattern_scan s0 srest md mm opts.positions).count (i, j)))).add_score
              (neg * (((s0 :: srest).filter
                (fun e => py_in c.text e)).length))) := by
  simp only [DSPatternRule_apply, Option.some.injEq] at happ
  rw [← happ]
  show cand_at (pattern_neg_phase _ _ _ (pattern_pos_phase _ _ _)) (i, j) = _
  rw [cand_at_neg_phase, cand_at_pos_phase, hc]
  simp only [Option.map_some', Option.some.injEq, add_score_is_dec, add_score_text]

/-- Witness for claim_C4_amended on pattern_example: the candidate at
position 0 is matched twice and receives the positive delta twice. -/
theorem claim_C4_witness :
    cand_at [⟨[DScand.dec "a" 2], none⟩, ⟨[DScand.dec "b" 2], none⟩,
        ⟨[DScand.dec "a" 1], none⟩, ⟨[DScand.dec "b" 1], none⟩] (0, 0) =
      some (DScand.dec "a" 2) :=
  claim_C4_amended (.str "a") [.str "b"] 1 0 1 0 pattern_example
    ⟨[⟨[DScand.dec "a" 2], none⟩, ⟨[DScand.dec "b" 2], none⟩,
      ⟨[DScand.dec "a" 1], none⟩, ⟨[DScand.dec "b" 1], none⟩], [], [], "%z", []⟩
    0 0 (DScand.dec "a" 0) (by rfl) (by rfl)

/-- Inserting a valid entry preserves step-B dict well-formedness. -/
theorem upsert_group_ok {P : String → Nat × Nat → Prop}
    (groups : List (String × List (Nat × Nat))) (key : String) (idx : Nat × Nat)
    (hg : GroupsOK P groups) (hp : P key idx) :
    GroupsOK P (upsert_group groups key idx) := by
  obtain ⟨hdist, hmem⟩ := hg
  rw [upsert_group]
  by_cases hex : (groups.any (fun g => g.1 == key)) = true
  · rw [if_pos hex]
    constructor
    · apply hdist.map
      intro g1 g2 h12
      split <;> split <;> exact h12
    · intro g2 hg2
      rw [List.mem_map] at hg2
      obtain ⟨g, hgmem, rfl⟩ := hg2
      by_cases hk : (g.1 == key) = true
      · rw [if_pos hk]
        refine ⟨by simp, ?_⟩
        intro ij2 hij2
        rw [List.mem_append] at hij2
        rcases hij2 with h | h
        · exact (hmem g hgmem).2 ij2 h
        · rw [List.mem_singleton] at h
          rw [h]
          show P (g.1, g.2 ++ [idx]).1 idx
          rw [beq_iff_eq] at hk
          show P g.1 idx
          rw [hk]
          exact hp
      · rw [if_neg hk]
        exact hmem g hgmem
  · rw [if_neg hex]
    constructor
    · rw [List.pairwise_append]
      refine ⟨hdist, List.pairwise_singleton _ _, ?_⟩
      intro g hgmem g2 hg2
      rw [List.mem_singleton] at hg2
      subst hg2
      intro hcon
      apply hex
      rw [List.any_eq_true]
      exact ⟨g, hgmem, by rw [beq_iff_eq]; exact hcon⟩
    · intro g hgmem
      rw [List.mem_append] at hgmem
      rcases hgmem with h | h
      · exact hmem g h
      · rw [List.mem_singleton] at h
        rw [h]
        refine ⟨by simp, ?_⟩
        intro ij2 hij2
        rw [List.mem_singleton] at hij2
        rw [hij2]
        exact hp

/-- One position's insertions preserve well-formedness. -/
theorem upsert_fold_pos_ok {P : String → Nat × Nat → Prop} (i : Nat) :
    ∀ (l : List (Nat × DScand)) (groups : List (String × List (Nat × Nat))),
      GroupsOK P groups → (∀ jc ∈ l, P jc.2.text (i, jc.1)) →
      GroupsOK P
        (l.foldl (fun g jc => upsert_group g jc.2.text (i, jc.1)) groups) := by
  intro l
  induction l with
  | nil => intro groups hg _; exact hg
  | cons jc rest ih =>
    intro groups hg hp
    rw [List.foldl_cons]
    exact ih _ (upsert_group_ok groups jc.2.text (i, jc.1) hg
        (hp jc (List.mem_cons_self jc rest)))
      (fun jc2 h2 => hp jc2 (List.mem_cons_of_mem jc h2))

theorem mem_enum_from {α : Type} :
    ∀ (l : List α) (n i : Nat) (a : α), (i, a) ∈ enum_from n l →
      l.get? (i - n) = some a ∧ n ≤ i := by
  intro l
  induction l with
  | nil => intro n i a h; cases h
  | cons x rest ih =>
    intro n i a h
    rw [enum_from] at h
    rcases List.mem_cons.mp h with heq | h2
    · have hi : i = n := congrArg Prod.fst heq
      have ha : a = x := congrArg Prod.snd heq
      subst hi
      subst ha
      rw [Nat.sub_self]
      exact ⟨rfl, le_refl i⟩
    · obtain ⟨hget, hle⟩ := ih (n + 1) i a h2
      have hsub : i - n = (i - (n + 1)) + 1 := by omega
      rw [hsub, List.get?_cons_succ]
      exact ⟨hget, by omega⟩

theorem mem_py_enum {α : Type} (l : List α) (i : Nat) (a : α)
    (h : (i, a) ∈ py_enum l) : l.get? i = some a := by
  obtain ⟨hget, _⟩ := mem_enum_from l 0 i a h
  rw [Nat.sub_zero] at hget
  exact hget

theorem mem_all_max_enum_aux :
    ∀ (l high : List (Nat × DScand)) (x : Nat × DScand),
      x ∈ all_max_enum_aux high l → x ∈ high ∨ x ∈ l := by
  intro l
  induction l with
  | nil =>
    intro high x h
    rw [all_max_enum_aux] at h
    exact Or.inl h
  | cons y rest ih =>
    intro high x h
    cases high with
    | nil =>
      rw [all_max_enum_aux] at h
      rcases ih [y] x h with h2 | h2
      · rw [List.mem_singleton] at h2
        exact Or.inr (by rw [h2]; exact List.mem_cons_self y rest)
      · exact Or.inr (List.mem_cons_of_mem y h2)
    | cons h0 hs =>
      rw [all_max_enum_aux] at h
      split at h
      · rcases ih [y] x h with h2 | h2
        · rw [List.mem_singleton] at h2
          exact Or.inr (by rw [h2]; exact List.mem_cons_self y rest)
        · exact Or.inr (List.mem_cons_of_mem y h2)
      · split at h
        · rcases ih (h0 :: hs ++ [y]) x h with h2 | h2
          · rcases List.mem_cons.mp h2 with h3 | h3
            · exact Or.inl (h3 ▸ List.mem_cons_self h0 hs)
            · rcases List.mem_append.mp h3 with h4 | h4
              · exact Or.inl (List.mem_cons_of_mem h0 h4)
              · rw [List.mem_singleton] at h4
                exact Or.inr (by rw [h4]; exact List.mem_cons_self y rest)
          · exact Or.inr (List.mem_cons_of_mem y h2)
        · rcases ih (h0 :: hs) x h with h2 | h2
          · exact Or.inl h2
          · exact Or.inr (List.mem_cons_of_mem y h2)

/-- The step-B dict collected from the model is well-formed: distinct
keys, nonempty groups, and every recorded index holds a candidate whose
text is the group's key. -/
theorem stepB_groups_ok (ps : List DSpos) :
    GroupsOK (fun k ij => ∃ c, cand_at ps ij = some c ∧ c.text = k)
      (stepB_groups ps) := by
  rw [stepB_groups]
  have main : ∀ (l : List (Nat × DSpos))
      (groups : List (String × List (Nat × Nat))),
      (∀ ip ∈ l, ps.get? ip.1 = some ip.2) →
      GroupsOK (fun k ij => ∃ c, cand_at ps ij = some c ∧ c.text = k) groups →
      GroupsOK (fun k ij => ∃ c, cand_at ps ij = some c ∧ c.text = k)
        (l.foldl (fun groups ip =>
          (all_max_enum_aux [] (py_enum ip.2.cands)).foldl
            (fun groups jc => upsert_group groups jc.2.text (ip.1, jc.1))
            groups) groups) := by
    intro l
    induction l with
    | nil => intro groups _ hg; exact hg
    | cons ip rest ih =>
      intro groups hmem hg
      rw [List.foldl_cons]
      apply ih _ (fun ip2 h2 => hmem ip2 (List.mem_cons_of_mem ip h2))
      apply upsert_fold_pos_ok ip.1 _ groups hg
      intro jc hjc
      have hins : jc ∈ py_enum ip.2.cands := by
        rcases mem_all_max_enum_aux (py_enum ip.2.cands) [] jc hjc with h2 | h2
        · cases h2
        · exact h2
      refine ⟨jc.2, ?_, rfl⟩
      rw [cand_at]
      rw [hmem ip (List.mem_cons_self ip rest)]
      simp only [Option.some_bind]
      exact mem_py_enum ip.2.cands jc.1 jc.2 hins
  apply main
  · intro ip h2
    exact mem_py_enum ps ip.1 ip.2 h2
  · exact ⟨List.Pairwise.nil, fun g hg => absurd hg (List.not_mem_nil g)⟩

theorem stepB_champion_eq (ps : List DSpos) (grp : List (Nat × Nat)) :
    stepB_champion ps grp = grp.foldl (champ_step ps) none := by
  rw [stepB_champion]
  congr 1
  funext best ij
  cases best with
  | none => rw [champ_step]
  | some bij => rw [champ_step]

theorem champ_fold_some (ps : List DSpos) :
    ∀ (l : List (Nat × Nat)) (b : Nat × Nat),
      ∃ r, l.foldl (champ_step ps) (some b) = some r := by
  intro l
  induction l with
  | nil => intro b; exact ⟨b, rfl⟩
  | cons ij rest ih =>
    intro b
    rw [List.foldl_cons]
    have hcases : champ_step ps (some b) ij = some b ∨
        champ_step ps (some b) ij = some ij := by
      rw [champ_step]
      cases cand_at ps ij with
      | none => exact Or.inl rfl
      | some tok =>
        cases cand_at ps b with
        | none => exact Or.inl rfl
        | some btok =>
          show (if tok.score > btok.score then some ij else some b) = some b ∨
            (if tok.score > btok.score then some ij else some b) = some ij
          by_cases hlt : tok.score > btok.score
          · rw [if_pos hlt]
            exact Or.inr rfl
          · rw [if_neg hlt]
            exact Or.inl rfl
    rcases hcases with h | h
    · rw [h]; exact ih b
    · rw [h]; exact ih ij

theorem stepB_champion_isSome (ps : List DSpos) (grp : List (Nat × Nat))
    (hne : grp ≠ [])
    (hsome : ∀ ij ∈ grp, (cand_at ps ij).isSome = true) :
    ∃ champ, stepB_champion ps grp = some champ := by
  match grp, hne with
  | ij0 :: rest, _ =>
    rw [stepB_champion_eq, List.foldl_cons]
    have h0 := hsome ij0 (List.mem_cons_self ij0 rest)
    cases h1 : cand_at ps ij0 with
    | none => rw [h1] at h0; cases h0
    | some tok =>
      have hstep : champ_step ps none ij0 = some ij0 := by rw [champ_step, h1]
      rw [hstep]
      exact champ_fold_some ps rest ij0

theorem champ_fold_congr (ps1 ps2 : List DSpos) :
    ∀ (l : List (Nat × Nat)) (best : Option (Nat × Nat)),
      (∀ ij ∈ l, cand_at ps1 ij = cand_at ps2 ij) →
      (∀ b, best = some b → cand_at ps1 b = cand_at ps2 b) →
      l.foldl (champ_step ps1) best = l.foldl (champ_step ps2) best := by
  intro l
  induction l with
  | nil => intro best _ _; rfl
  | cons ij rest ih =>
    intro best hl hb
    rw [List.foldl_cons, List.foldl_cons]
    have hij := hl ij (List.mem_cons_self ij rest)
    have hstep : champ_step ps1 best ij = champ_step ps2 best ij := by
      cases best with
      | none => rw [champ_step, champ_step, hij]
      | some bij => rw [champ_step, champ_step, hij, hb bij rfl]
    rw [hstep]
    refine ih _ (fun ij2 h2 => hl ij2 (List.mem_cons_of_mem ij h2)) ?_
    intro b hbnew
    cases best with
    | none =>
      rw [champ_step] at hbnew
      cases h1 : cand_at ps2 ij with
      | none => rw [h1] at hbnew; cases hbnew
      | some tok =>
        rw [h1] at hbnew
        simp only [Option.some.injEq] at hbnew
        rw [← hbnew]
        exact hij
    | some bij =>
      rw [champ_step] at hbnew
      cases h1 : cand_at ps2 ij with
      | none =>
        rw [h1] at hbnew
        exact hb b hbnew
      | some tok =>
        rw [h1] at hbnew
        cases h2 : cand_at ps2 bij with
        | none =>
          rw [h2] at hbnew
          exact hb b hbnew
        | some btok =>
          rw [h2] at hbnew
          have hbnew2 : (if tok.score > btok.score then some ij else some bij)
              = some b := hbnew
          by_cases hlt : tok.score > btok.score
          · rw [if_pos hlt] at hbnew2
            simp only [Option.some.injEq] at hbnew2
            rw [← hbnew2]
            exact hij
          · rw [if_neg hlt] at hbnew2
            exact hb b hbnew2

theorem stepB_champion_congr (ps1 ps2 : List DSpos) (grp : List (Nat × Nat))
    (h : ∀ ij ∈ grp, cand_at ps1 ij = cand_at ps2 ij) :
    stepB_champion ps1 grp = stepB_champion ps2 grp := by
  rw [stepB_champion_eq, stepB_champion_eq]
  exact champ_fold_congr ps1 ps2 grp none h (fun b hb => by cases hb)

/-- Pointwise effect of one step-B group application. -/
theorem cand_at_stepB_apply (dupepenalty : Int) (ps : List DSpos) (key : String)
    (grp : List (Nat × Nat)) (i j : Nat) (champ : Nat × Nat)
    (hch : stepB_champion ps grp = some champ) :
    cand_at (stepB_apply_group dupepenalty ps key grp) (i, j) =
      (cand_at ps (i, j)).map (fun c =>
        if c.text == key && !((i, j) == champ) then c.add_score dupepenalty
        else c) := by
  rw [stepB_apply_group, hch]
  exact cand_at_mapi_mapi
    (fun i j tok => if tok.text == key && !((i, j) == champ) then
      tok.add_score dupepenalty else tok) ps i j

/-- A step-B group application leaves candidates of other texts alone. -/
theorem stepB_apply_frame (dupepenalty : Int) (ps : List DSpos) (key : String)
    (grp : List (Nat × Nat)) (ij : Nat × Nat) (c : DScand)
    (hc : cand_at ps ij = some c) (hne : c.text ≠ key) :
    cand_at (stepB_apply_group dupepenalty ps key grp) ij = some c := by
  cases hch : stepB_champion ps grp with
  | none => rw [stepB_apply_group, hch]; exact hc
  | some champ =>
    obtain ⟨i, j⟩ := ij
    rw [cand_at_stepB_apply dupepenalty ps key grp i j champ hch, hc]
    have hkf : (c.text == key) = false := by
      rw [beq_eq_false_iff_ne]
      exact hne
    simp only [Option.map_some', hkf, Bool.false_and, if_false]
    rfl

theorem group_of_mem (groups : List (String × List (Nat × Nat))) (key : String)
    (grp : List (Nat × Nat)) (h : group_of groups key = some grp) :
    ∃ g ∈ groups, g.1 = key ∧ g.2 = grp := by
  rw [group_of, Option.map_eq_some'] at h
  obtain ⟨g, hfind, hsnd⟩ := h
  refine ⟨g, List.mem_of_find?_eq_some hfind, ?_, hsnd⟩
  have h2 := List.find?_some hfind
  rwa [beq_iff_eq] at h2

theorem group_of_none (groups : List (String × List (Nat × Nat))) (key : String)
    (h : ∀ g ∈ groups, g.1 ≠ key) : group_of groups key = none := by
  rw [group_of, Option.map_eq_none', List.find?_eq_none]
  intro g hg
  simp only [beq_iff_eq]
  exact h g hg

theorem group_of_cons_pos (g : String × List (Nat × Nat))
    (rest : List (String × List (Nat × Nat))) (key : String) (h : g.1 = key) :
    group_of (g :: rest) key = some g.2 := by
  rw [group_of, List.find?_cons_of_pos, Option.map_some']
  rw [beq_iff_eq]
  exact h

theorem group_of_cons_neg (g : String × List (Nat × Nat))
    (rest : List (String × List (Nat × Nat))) (key : String) (h : g.1 ≠ key) :
    group_of (g :: rest) key = group_of rest key := by
  rw [group_of, group_of, List.find?_cons_of_neg]
  simp only [beq_iff_eq]
  exact h

/-- Closed form for the step-B fold: a candidate ends unchanged when its
text keys no group or it is its group's champion, and gets the penalty
added exactly once otherwise; champions are read from the model the fold
started with. -/
theorem stepB_fold_formula (dupepenalty : Int) :
    ∀ (groups : List (String × List (Nat × Nat))) (ps : List DSpos),
      GroupsOK (fun k ij => ∃ c, cand_at ps ij = some c ∧ c.text = k) groups →
      ∀ (i j : Nat) (c : DScand), cand_at ps (i, j) = some c →
      cand_at (groups.foldl
          (fun ps g => stepB_apply_group dupepenalty ps g.1 g.2) ps) (i, j) =
        some (match group_of groups c.text with
              | none => c
              | some grp =>
                if stepB_champion ps grp = some (i, j) then c
                else c.add_score dupepenalty) := by
  intro groups
  induction groups with
  | nil =>
    intro ps _ i j c hc
    rw [List.foldl_nil, hc]
    rfl
  | cons g rest ih =>
    intro ps hG i j c hc
    rw [List.foldl_cons]
    obtain ⟨hdist, hmem⟩ := hG
    rw [List.pairwise_cons] at hdist
    obtain ⟨hgnil, hgP⟩ := hmem g (List.mem_cons_self g rest)
    have hsome : ∀ ij ∈ g.2, (cand_at ps ij).isSome = true := by
      intro ij hij
      obtain ⟨c2, hc2, _⟩ := hgP ij hij
      rw [hc2]
      rfl
    obtain ⟨champ, hch⟩ := stepB_champion_isSome ps g.2 hgnil hsome
    have hframe : ∀ g2 ∈ rest, ∀ ij2 ∈ g2.2,
        cand_at (stepB_apply_group dupepenalty ps g.1 g.2) ij2 =
          cand_at ps ij2 := by
      intro g2 hg2 ij2 hij2
      obtain ⟨c2, hc2, htext⟩ := (hmem g2 (List.mem_cons_of_mem g hg2)).2 ij2 hij2
      have hne2 : c2.text ≠ g.1 := by
        rw [htext]
        exact fun hcon => hdist.1 g2 hg2 hcon.symm
      rw [stepB_apply_frame dupepenalty ps g.1 g.2 ij2 c2 hc2 hne2, hc2]
    have hGrest : GroupsOK (fun k ij => ∃ c,
        cand_at (stepB_apply_group dupepenalty ps g.1 g.2) ij = some c ∧
          c.text = k) rest := by
      refine ⟨hdist.2, ?_⟩
      intro g2 hg2
      refine ⟨(hmem g2 (List.mem_cons_of_mem g hg2)).1, ?_⟩
      intro ij2 hij2
      obtain ⟨c2, hc2, htext⟩ := (hmem g2 (List.mem_cons_of_mem g hg2)).2 ij2 hij2
      exact ⟨c2, by rw [hframe g2 hg2 ij2 hij2]; exact hc2, htext⟩
    by_cases hkey : c.text = g.1
    · have hc1 : cand_at (stepB_apply_group dupepenalty ps g.1 g.2) (i, j) =
          some (if c.text == g.1 && !((i, j) == champ) then
                  c.add_score dupepenalty else c) := by
        rw [cand_at_stepB_apply dupepenalty ps g.1 g.2 i j champ hch, hc]
        rfl
      have hih := ih (stepB_apply_group dupepenalty ps g.1 g.2) hGrest i j _ hc1
      rw [hih]
      have hc1text : (if c.text == g.1 && !((i, j) == champ) then
          c.add_score dupepenalty else c).text = c.text := by
        split
        · exact add_score_text c dupepenalty
        · rfl
      have hnone : group_of rest (if c.text == g.1 && !((i, j) == champ) then
          c.add_score dupepenalty else c).text = none := by
        rw [hc1text]
        apply group_of_none
        intro g2 hg2 hcon
        rw [hkey] at hcon
        exact hdist.1 g2 hg2 hcon.symm
      have hgroup : group_of (g :: rest) c.text = some g.2 :=
        group_of_cons_pos g rest c.text hkey.symm
      rw [hnone, hgroup]
      show some (if c.text == g.1 && !((i, j) == champ) then
              c.add_score dupepenalty else c) =
        some (if stepB_champion ps g.2 = some (i, j) then c
              else c.add_score dupepenalty)
      rw [hch]
      have hkb : (c.text == g.1) = true := by
        rw [beq_iff_eq]
        exact hkey
      by_cases hcij : some champ = some (i, j)
      · rw [if_pos hcij]
        have h2 : champ = (i, j) := by
          rw [Option.some.injEq] at hcij
          exact hcij
        have hbeq : ((i, j) == champ) = true := by
          rw [h2]
          exact beq_self_eq_true (i, j)
        rw [hkb, hbeq]
        rfl
      · rw [if_neg hcij]
        have hbeq : ((i, j) == champ) = false := by
          rw [beq_eq_false_iff_ne]
          intro h2
          exact hcij (by rw [h2])
        rw [hkb, hbeq]
        rfl
    · have hcb : (c.text == g.1) = false := by
        rw [beq_eq_false_iff_ne]
        exact hkey
      have hc1 : cand_at (stepB_apply_group dupepenalty ps g.1 g.2) (i, j) =
          some c := by
        rw [cand_at_stepB_apply dupepenalty ps g.1 g.2 i j champ hch, hc]
        simp only [Option.map_some', hcb, Bool.false_and, if_false]
        rfl
      have hih := ih (stepB_apply_group dupepenalty ps g.1 g.2) hGrest i j c hc1
      rw [hih]
      have hgroup : group_of (g :: rest) c.text = group_of rest c.text :=
        group_of_cons_neg g rest c.text (fun h2 => hkey h2.symm)
      rw [hgroup]
      cases hgr : group_of rest c.text with
      | none => rfl
      | some grp =>
        obtain ⟨g2, hg2mem, hg2key, hg2grp⟩ := group_of_mem rest c.text grp hgr
        have hcongr : stepB_champion
            (stepB_apply_group dupepenalty ps g.1 g.2) grp =
            stepB_champion ps grp := by
          apply stepB_champion_congr
          intro ij2 hij2
          exact hframe g2 hg2mem ij2 (by rw [hg2grp]; exact hij2)
        show some (if stepB_champion
                (stepB_apply_group dupepenalty ps g.1 g.2) grp = some (i, j)
              then c else c.add_score dupepenalty) =
          some (if stepB_champion ps grp = some (i, j) then c
              else c.add_score dupepenalty)
        rw [hcongr]

/-- C3 (amended): in step B of penalize_duplicates, candidates are grouped
by text with no decorator filter and no group-size filter; a candidate
whose text keys a collected group is penalized exactly when it is not that
group's champion (the first highest-scoring recorded instance, scores read
from the model step B started from), literals and singleton groups
included; candidates whose text keys no group are untouched. -/
theorem claim_C3_amended (dupepenalty : Int) (opts : DSoptions) (i j : Nat)
    (c : DScand) (hc : cand_at opts.positions (i, j) = some c) :
    cand_at (penalize_duplicates_stepB dupepenalty opts).positions (i, j) =
      some (match group_of (stepB_groups opts.positions) c.text with
            | none => c
            | some grp =>
              if stepB_champion opts.positions grp = some (i, j) then c
              else c.add_score dupepenalty) :=
  stepB_fold_formula dupepenalty (stepB_groups opts.positions) opts.positions
    (stepB_groups_ok opts.positions) i j c hc

/-- Witness for claim_C3_amended on dup_example: the literal x at position
1 is in the group keyed x whose champion is the earlier instance at
position 0, so it receives the penalty. -/
theorem claim_C3_witness :
    cand_at (penalize_duplicates_stepB (-2) dup_example).positions (1, 0) =
      some ((DScand.dec "x" 0).add_score (-2)) :=
  claim_C3_amended (-2) dup_example 1 0 (DScand.dec "x" 0) rfl

end DateSense
